import Mathlib

/-!
Pscf::Mesh: rank / position / shift on a D-dimensional integer lattice

Shallow embedding of `src/pscf/mesh/Mesh.tpp`.

* The template parameter `D` is written `n + 1`: the code writes `offsets_[D - 1]`
  and reads `position[D - 1]`, so `D ≥ 1` throughout.
* `IntVec<D>` is a function `Fin (n + 1) → Int` (a fixed-size array of `D` ints).
* C++ `int` is the 32-bit two's-complement integer.  The products, sums and
  differences of `setDimensions`, `rank` and `position` are taken modulo `2^32`
  (`wrap`), which is what the usual targets do on signed overflow.  `/` on `int` is
  truncating division; a zero divisor, or `INT_MIN / -1`, ends the process (`intDiv`
  returns `none`).
* In `shift(int&, int)` the one intermediate value that can leave the `int` range is
  the product `shift*dimensions_[i]`, and the coordinate that is stored is the same
  modulo `2^32`; that function is written over `Int` directly.
* A `for` loop is modelled by the state reached after `k` iterations, by recursion
  on `k`; the bound proof carried along keeps every array index inside `[0, D)`.
* `UTIL_THROW` is modelled by the flag `Call.threw`, `assert` by `Option`
  (`none` is a failed assertion).

The contour discretization of `Fd1d::Block` (`src/fd1d/solvers/Block.h`) follows in
the namespace `Pscf.Fd1d`.  The header only declares the member functions, so
`setDiscretization` and `setLength` are written from the specification, over abstract
operations on `double`.
-/

namespace Pscf

/-- The type `IntVec<D>` with `D = n + 1`: an array of `D` ints. -/
abbrev IntVec (n : Nat) := Fin (n + 1) → Int

/-- The data members of `Mesh<D>`, `D = n + 1`. -/
structure Mesh (n : Nat) where
  dimensions_ : IntVec n
  offsets_ : IntVec n
  size_ : Int

/-- How a call of a mutating member function ends: the state of the object when
control leaves the call, and whether it left through `UTIL_THROW`. -/
structure Call (n : Nat) where
  mesh : Mesh n
  threw : Bool

/-- The value of an `int` expression after 32-bit two's-complement wrap-around: the
representative of `x` modulo `2^32` in `[-2^31, 2^31)`. -/
def wrap (x : Int) : Int :=
  (x + 2147483648) % 4294967296 - 2147483648

/-- The C++ expression `a / b` on `int`: truncating division; `none` when the process
is ended by the division (`b == 0`, or `INT_MIN / -1`). -/
def intDiv (a b : Int) : Option Int :=
  if b = 0 then none
  else if a = -2147483648 ∧ b = -1 then none
  else some (Int.tdiv a b)

namespace Fd1d

/-- The operations on C++ `double` that the contour discretization of a block uses,
kept abstract so that nothing is assumed about floating-point rounding: the test
`x > 0`, division, conversion of an `int`, and rounding to the nearest `int`. -/
structure DoubleOps (F : Type) where
  isPos : F → Bool
  div : F → F → F
  ofInt : Int → F
  round : F → Int

/-- The members of `Fd1d::Block` that the contour discretization touches: `length`
(held by the base class `BlockDescriptor`), `ds_` (Block.h line 152) and `ns_`
(Block.h line 155, the number of contour length steps). -/
structure Block (F : Type) where
  length : F
  ds_ : F
  ns_ : Int

namespace Block

variable {F : Type}

/-- Modelled from the spec: the body of `Block::setDiscretization(domain, ds)` is in
`Block.cpp`, which is not among the sources (Block.h lines 63-69 only declare it).
Spec 7: a non-positive block length and a zero or negative contour step target are an
`InvalidArgument` failure, fatal to the call (`none`).  Spec 4.3: otherwise it "chooses
`ns = round(length/targetStep)` (minimum 1), sets `ds = length/ns`".  The allocation of
the coefficient arrays is left out. -/
def setDiscretization (ops : DoubleOps F) (b : Block F) (targetStep : F) :
    Option (Block F) :=
  if ops.isPos b.length = false then none
  else if ops.isPos targetStep = false then none
  else
    let ns := max 1 (ops.round (ops.div b.length targetStep))
    some { length := b.length
           ds_ := ops.div b.length (ops.ofInt ns)
           ns_ := ns }

/-- Modelled from the spec: the body of `Block::setLength(length)` is in `Block.cpp`,
which is not among the sources (Block.h lines 71-76 only declare it).  Spec 7: a
non-positive block length is an `InvalidArgument` failure, fatal to the call (`none`).
Spec 4.3: otherwise it "updates `length` and recomputes `ds = newLength/ns`, holding
step count fixed". -/
def setLength (ops : DoubleOps F) (b : Block F) (newLength : F) : Option (Block F) :=
  if ops.isPos newLength = false then none
  else
    some { length := newLength
           ds_ := ops.div newLength (ops.ofInt b.ns_)
           ns_ := b.ns_ }

/-- A sequence of `setLength` calls, one for each entry of `lengths`, in order; `none`
as soon as one of them fails. -/
def setLengths (ops : DoubleOps F) (b : Block F) : List F → Option (Block F)
  | [] => some b
  | l :: ls =>
    match setLength ops b l with
    | none => none
    | some b1 => setLengths ops b1 ls

/-- The exact rational numbers as an instance of the abstract operations. -/
def ratOps : DoubleOps ℚ :=
  { isPos := fun x => decide (0 < x)
    div := fun x y => x / y
    ofInt := fun z => (z : ℚ)
    round := fun x => ⌊x + 1 / 2⌋ }

end Block

end Fd1d

namespace Mesh

variable {n : Nat}

/-- First loop of `setDimensions` (lines 60-64), after the iterations `i = 0 .. k-1`:
`true` when `UTIL_THROW` has been reached (some `dimensions[i] <= 0`). -/
def setDimensionsCheck (dimensions : IntVec n) : (k : Nat) → k ≤ n + 1 → Bool
  | 0, _ => false
  | k + 1, h =>
    if setDimensionsCheck dimensions k (Nat.le_of_succ_le h) then true
    else decide (dimensions ⟨k, h⟩ ≤ 0)

/-- Lines 67-70 of `setDimensions`: `offsets_[D-1] = 1`, then the state of `offsets_`
after `k` iterations of `for (i = D-1; i > 0; --i) offsets_[i-1] = offsets_[i]*dimensions_[i]`.
In iteration number `k` (counted from 0) the loop variable is `i = D - 1 - k = n - k`.
The product is an `int` product. -/
def setDimensionsOffsets (dimensions offsets : IntVec n) : (k : Nat) → k ≤ n → IntVec n
  | 0, _ => Function.update offsets (Fin.last n) 1
  | k + 1, h =>
    let offsets1 := setDimensionsOffsets dimensions offsets k (Nat.le_of_succ_le h)
    Function.update offsets1
      ⟨n - k - 1, Nat.lt_succ_of_le (Nat.le_trans (Nat.sub_le _ _) (Nat.sub_le _ _))⟩
      (wrap (offsets1 ⟨n - k, Nat.lt_succ_of_le (Nat.sub_le _ _)⟩
        * dimensions ⟨n - k, Nat.lt_succ_of_le (Nat.sub_le _ _)⟩))

/-- Member function `Mesh<D>::setDimensions(IntVec<D> const & dimensions)` (lines 56-72). -/
def setDimensions (m : Mesh n) (dimensions : IntVec n) : Call n :=
  if setDimensionsCheck dimensions (n + 1) (Nat.le_refl _) then
    { mesh := m, threw := true }
  else
    let offsets := setDimensionsOffsets dimensions m.offsets_ n (Nat.le_refl _)
    { mesh := { dimensions_ := dimensions
                offsets_ := offsets
                size_ := wrap (offsets 0 * dimensions 0) }
      threw := false }

/-- The loop of `rank` (lines 80-84) after the iterations `i = 0 .. k-1`:
`none` once an `assert` has failed, else the value of the `int` variable `result`. -/
def rankLoop (m : Mesh n) (position : IntVec n) : (k : Nat) → k ≤ n → Option Int
  | 0, _ => some 0
  | k + 1, h =>
    match rankLoop m position k (Nat.le_of_succ_le h) with
    | none => none
    | some result =>
      if position ⟨k, Nat.lt_succ_of_lt h⟩ ≥ 0 then
        if position ⟨k, Nat.lt_succ_of_lt h⟩ < m.dimensions_ ⟨k, Nat.lt_succ_of_lt h⟩ then
          some (wrap (result
            + wrap (position ⟨k, Nat.lt_succ_of_lt h⟩ * m.offsets_ ⟨k, Nat.lt_succ_of_lt h⟩)))
        else none
      else none

/-- Member function `Mesh<D>::rank(IntVec<D> const & position)` (lines 75-89), assertions enabled:
after the loop `i = D - 1`, and the last coordinate is added without a factor. -/
def rank (m : Mesh n) (position : IntVec n) : Option Int :=
  match rankLoop m position n (Nat.le_refl _) with
  | none => none
  | some result =>
    if position (Fin.last n) ≥ 0 then
      if position (Fin.last n) < m.dimensions_ (Fin.last n) then
        some (wrap (result + position (Fin.last n)))
      else none
    else none

/-- The loop of `position` (lines 99-102) after the iterations `i = 0 .. k-1`:
the pair `(position, remainder)`, or `none` when a division has ended the process.
The local array is written before it is read; its unset entries are shown as 0. -/
def positionLoop (m : Mesh n) (id : Int) : (k : Nat) → k ≤ n → Option (IntVec n × Int)
  | 0, _ => some (fun _ => 0, id)
  | k + 1, h =>
    match positionLoop m id k (Nat.le_of_succ_le h) with
    | none => none
    | some s =>
      match intDiv s.2 (m.offsets_ ⟨k, Nat.lt_succ_of_lt h⟩) with
      | none => none
      | some q =>
        some (Function.update s.1 ⟨k, Nat.lt_succ_of_lt h⟩ q,
          wrap (s.2 - wrap (q * m.offsets_ ⟨k, Nat.lt_succ_of_lt h⟩)))

/-- Member function `Mesh<D>::position(int id)` (lines 92-105); `none` when a division has
ended the process. -/
def position (m : Mesh n) (id : Int) : Option (IntVec n) :=
  match positionLoop m id n (Nat.le_refl _) with
  | none => none
  | some s => some (Function.update s.1 (Fin.last n) s.2)

/-- Member function `Mesh<D>::isInMesh(int coordinate, int i)` (lines 107-116). -/
def isInMeshCoordinate (m : Mesh n) (coordinate : Int) (i : Fin (n + 1)) : Bool :=
  let result := true
  let result := if coordinate < 0 then false else result
  let result := if coordinate ≥ m.dimensions_ i then false else result
  result

/-- The loop of `isInMesh(IntVec<D> const &)` (lines 123-128) after the iterations
`i = 0 .. k-1`: the value of `result`. -/
def isInMeshLoop (m : Mesh n) (position : IntVec n) : (k : Nat) → k ≤ n + 1 → Bool
  | 0, _ => true
  | k + 1, h =>
    let result := isInMeshLoop m position k (Nat.le_of_succ_le h)
    let result := if position ⟨k, h⟩ < 0 then false else result
    let result := if position ⟨k, h⟩ ≥ m.dimensions_ ⟨k, h⟩ then false else result
    result

/-- Member function `Mesh<D>::isInMesh(IntVec<D> const & position)` (lines 119-130). -/
def isInMesh (m : Mesh n) (position : IntVec n) : Bool :=
  isInMeshLoop m position (n + 1) (Nat.le_refl _)

/-- Member function `Mesh<D>::shift(int& coordinate, int i)` (lines 132-143): the pair
(returned shift, value of `coordinate` after the call). -/
def shiftCoordinate (m : Mesh n) (coordinate : Int) (i : Fin (n + 1)) : Int × Int :=
  let shift :=
    if coordinate ≥ 0 then Int.tdiv coordinate (m.dimensions_ i)
    else -1 + Int.tdiv (coordinate + 1) (m.dimensions_ i)
  (shift, coordinate - shift * m.dimensions_ i)

/-- The loop of `shift(IntVec<D>&)` (lines 150-152) after the iterations
`i = 0 .. k-1`: the pair `(shifts, position)`.  The local array `shifts` is written
before it is read; its unset entries are shown as 0. -/
def shiftLoop (m : Mesh n) (position : IntVec n) : (k : Nat) → k ≤ n + 1 → IntVec n × IntVec n
  | 0, _ => (fun _ => 0, position)
  | k + 1, h =>
    let s := shiftLoop m position k (Nat.le_of_succ_le h)
    let r := shiftCoordinate m (s.2 ⟨k, h⟩) ⟨k, h⟩
    (Function.update s.1 ⟨k, h⟩ r.1, Function.update s.2 ⟨k, h⟩ r.2)

/-- Member function `Mesh<D>::shift(IntVec<D>& position)` (lines 146-154): the pair
(returned shifts, value of `position` after the call). -/
def shift (m : Mesh n) (position : IntVec n) : IntVec n × IntVec n :=
  shiftLoop m position (n + 1) (Nat.le_refl _)

/-- Invariant of a mesh whose strides did not overflow: positive dimensions, and the
offsets and the size are the exact products. -/
def Strided (m : Mesh n) : Prop :=
  (∀ i, 0 < m.dimensions_ i) ∧ m.offsets_ (Fin.last n) = 1 ∧
  (∀ (i : Nat) (h : i < n), m.offsets_ ⟨i, Nat.lt_succ_of_lt h⟩
      = m.offsets_ ⟨i + 1, Nat.succ_lt_succ h⟩ * m.dimensions_ ⟨i + 1, Nat.succ_lt_succ h⟩) ∧
  m.size_ = m.offsets_ 0 * m.dimensions_ 0

/-- Reference value for the proofs: the exact sum of `position[i] * offsets_[i]` over
`i = 0 .. k-1`, in the integers (no wrap-around). -/
def rankSum (m : Mesh n) (position : IntVec n) : (k : Nat) → k ≤ n → Int
  | 0, _ => 0
  | k + 1, h =>
    rankSum m position k (Nat.le_of_succ_le h)
      + position ⟨k, Nat.lt_succ_of_lt h⟩ * m.offsets_ ⟨k, Nat.lt_succ_of_lt h⟩

/-- Reference for the proofs: the loop of `position` computed in the integers, with no
wrap-around and a total division; `positionLoop` agrees with it while nothing
overflows. -/
def positionLoopExact (m : Mesh n) (id : Int) : (k : Nat) → k ≤ n → IntVec n × Int
  | 0, _ => (fun _ => 0, id)
  | k + 1, h =>
    let s := positionLoopExact m id k (Nat.le_of_succ_le h)
    let q := Int.tdiv s.2 (m.offsets_ ⟨k, Nat.lt_succ_of_lt h⟩)
    (Function.update s.1 ⟨k, Nat.lt_succ_of_lt h⟩ q, s.2 - q * m.offsets_ ⟨k, Nat.lt_succ_of_lt h⟩)

/-- Reference for the proofs: `position` computed in the integers. -/
def positionExact (m : Mesh n) (id : Int) : IntVec n :=
  let s := positionLoopExact m id n (Nat.le_refl _)
  Function.update s.1 (Fin.last n) s.2

/-- The member initialisers `dimensions_(0), offsets_(0), size_(0)` of the constructors
(lines 23-25 and 42-44). -/
def zeroed : Mesh n := ⟨fun _ => 0, fun _ => 0, 0⟩

/-- Constructor `Mesh<D>::Mesh(IntVec<D> const & dimensions)` (lines 39-45). -/
def ofDimensions (dimensions : IntVec n) : Call n :=
  setDimensions zeroed dimensions

/-- The 2 x 3 x 4 mesh, `Mesh<3>(IntVec<3>(2, 3, 4))`. -/
def mesh234 : Mesh 2 := (ofDimensions ![2, 3, 4]).mesh

/-- The one-dimensional mesh of size 10, `Mesh<1>(IntVec<1>(10))`. -/
def mesh10 : Mesh 0 := (ofDimensions ![10]).mesh

/-- Default constructor `Mesh<D>::Mesh()` (lines 20-29): the members are zeroed, then
`setDimensions` is called with `IntVec<D> dimensions(1)`, every entry equal to 1. -/
def defaultMesh : Call n :=
  setDimensions zeroed (fun _ => 1)

/-- Copy constructor `Mesh<D>::Mesh(Mesh<D> const & other)` (lines 31-37): the three
members are copied. -/
def copy (other : Mesh n) : Mesh n :=
  { dimensions_ := other.dimensions_
    offsets_ := other.offsets_
    size_ := other.size_ }

/-- Assignment operator `Mesh<D>::operator=` (lines 47-53):
`setDimensions(other.dimensions_)` on the target `m`. -/
def assign (m other : Mesh n) : Call n :=
  setDimensions m other.dimensions_

/-- The meshes a program can hold: built by a constructor that returned (one that throws
leaves no object), then changed by any number of `setDimensions` and `operator=` calls
(after a throw the object keeps the state `Call.mesh`). -/
inductive Reachable : Mesh n → Prop
  | default : Reachable (defaultMesh : Call n).mesh
  | ofDimensions (dimensions : IntVec n) :
      (ofDimensions dimensions).threw = false → Reachable (ofDimensions dimensions).mesh
  | copy (other : Mesh n) : Reachable other → Reachable (copy other)
  | setDimensions (m : Mesh n) (dimensions : IntVec n) :
      Reachable m → Reachable (setDimensions m dimensions).mesh
  | assign (m other : Mesh n) :
      Reachable m → Reachable other → Reachable (assign m other).mesh

theorem setDimensionsCheck_false_iff (dims : IntVec n) (k : Nat) (h : k ≤ n + 1) :
    setDimensionsCheck dims k h = false ↔ ∀ i : Fin (n + 1), i.val < k → 0 < dims i := by
  induction k with
  | zero => simp [setDimensionsCheck]
  | succ k ih =>
    simp only [setDimensionsCheck]
    constructor
    · intro hc i hi
      by_cases hk : setDimensionsCheck dims k (Nat.le_of_succ_le h) = true
      · simp [hk] at hc
      · simp only [hk] at hc
        have hprev := (ih (Nat.le_of_succ_le h)).1 (by simpa using hk)
        rcases Nat.lt_succ_iff_lt_or_eq.1 hi with hlt | heq
        · exact hprev i hlt
        · have : i = ⟨k, h⟩ := Fin.ext heq
          subst this
          simpa using hc
    · intro hall
      have hprev := (ih (Nat.le_of_succ_le h)).2 (fun i hi => hall i (Nat.lt_succ_of_lt hi))
      simp only [hprev]
      have := hall ⟨k, h⟩ (Nat.lt_succ_self k)
      simpa using this

theorem setDimensions_threw_false_iff (m : Mesh n) (dims : IntVec n) :
    (m.setDimensions dims).threw = false ↔ ∀ i, 0 < dims i := by
  unfold setDimensions
  by_cases hc : setDimensionsCheck dims (n + 1) (Nat.le_refl _) = true
  · simp only [hc, if_true]
    have : ¬ ∀ i : Fin (n + 1), i.val < n + 1 → 0 < dims i := by
      intro hall
      have := (setDimensionsCheck_false_iff dims (n + 1) (Nat.le_refl _)).2 hall
      simp [hc] at this
    constructor
    · intro h; simp at h
    · intro hall; exact absurd (fun i _ => hall i) this
  · have hf : setDimensionsCheck dims (n + 1) (Nat.le_refl _) = false := by simpa using hc
    simp only [hf]
    have := (setDimensionsCheck_false_iff dims (n + 1) (Nat.le_refl _)).1 hf
    constructor
    · intro _ i; exact this i i.isLt
    · intro _; simp

theorem wrap_of_range {x : Int} (h0 : -2147483648 ≤ x) (h1 : x < 2147483648) :
    wrap x = x := by
  unfold wrap
  omega

theorem Ioi_prod_step (dims : IntVec n) (i j : Fin (n + 1)) (hij : j.val = i.val + 1) :
    ∏ l ∈ Finset.Ioi i, dims l = dims j * ∏ l ∈ Finset.Ioi j, dims l := by
  have hins : Finset.Ioi i = insert j (Finset.Ioi j) := by
    ext l
    simp only [Finset.mem_Ioi, Finset.mem_insert, Fin.lt_def, Fin.ext_iff]
    omega
  rw [hins, Finset.prod_insert (by simp)]

theorem Ioi_last_prod (dims : IntVec n) (i : Fin (n + 1)) (hi : i.val = n) :
    ∏ l ∈ Finset.Ioi i, dims l = 1 := by
  have hempty : Finset.Ioi i = ∅ := by
    ext l
    simp only [Finset.mem_Ioi, Fin.lt_def, Finset.not_mem_empty, iff_false]
    have := l.isLt
    omega
  rw [hempty, Finset.prod_empty]

theorem prod_Ioi_bounds (dims : IntVec n) (hpos : ∀ i, 0 < dims i) (i : Fin (n + 1)) :
    0 < ∏ l ∈ Finset.Ioi i, dims l ∧ ∏ l ∈ Finset.Ioi i, dims l ≤ ∏ l, dims l := by
  have h1 : 0 < ∏ l ∈ Finset.Ioi i, dims l := Finset.prod_pos (fun l _ => hpos l)
  have h2 : 0 < ∏ l ∈ (Finset.Ioi i)ᶜ, dims l := Finset.prod_pos (fun l _ => hpos l)
  have h3 := Finset.prod_mul_prod_compl (Finset.Ioi i) dims
  refine ⟨h1, ?_⟩
  rw [← h3]
  exact le_mul_of_one_le_right h1.le h2

theorem offsetsLoop_spec (dims off : IntVec n) (hpos : ∀ i, 0 < dims i)
    (hfit : ∏ l, dims l < 2147483648) (k : Nat) (h : k ≤ n) :
    ∀ i : Fin (n + 1), n - k ≤ i.val →
      setDimensionsOffsets dims off k h i = ∏ l ∈ Finset.Ioi i, dims l := by
  induction k with
  | zero =>
    intro i hi
    have hin : i = Fin.last n := Fin.ext (Nat.le_antisymm (Nat.le_of_lt_succ i.isLt) hi)
    rw [hin, Ioi_last_prod dims (Fin.last n) rfl]
    exact Function.update_same _ _ _
  | succ k ih =>
    have ih' := ih (Nat.le_of_succ_le h)
    have hlt : n - k - 1 < n + 1 :=
      Nat.lt_succ_of_le (Nat.le_trans (Nat.sub_le _ _) (Nat.sub_le _ _))
    have hlt2 : n - k < n + 1 := Nat.lt_succ_of_le (Nat.sub_le _ _)
    have e : setDimensionsOffsets dims off (k + 1) h
        = Function.update (setDimensionsOffsets dims off k (Nat.le_of_succ_le h))
            ⟨n - k - 1, hlt⟩
            (wrap (setDimensionsOffsets dims off k (Nat.le_of_succ_le h) ⟨n - k, hlt2⟩
              * dims ⟨n - k, hlt2⟩)) := rfl
    rw [e]
    intro i hi
    by_cases hik : n - k ≤ i.val
    · rw [Function.update_noteq]
      · exact ih' i hik
      · intro hne
        have := congrArg Fin.val hne
        simp only at this
        omega
    · have hi' : i = ⟨n - k - 1, hlt⟩ := Fin.ext (by simp only; omega)
      rw [hi', Function.update_same, ih' ⟨n - k, hlt2⟩ (Nat.le_refl _)]
      have hstep := Ioi_prod_step dims ⟨n - k - 1, hlt⟩ ⟨n - k, hlt2⟩ (by simp only; omega)
      have hb := prod_Ioi_bounds dims hpos ⟨n - k - 1, hlt⟩
      rw [hstep] at hb ⊢
      rw [mul_comm] at hb ⊢
      exact wrap_of_range (by linarith [hb.1]) (by linarith [hb.2])

theorem univ_prod_eq (dims : IntVec n) :
    ∏ l, dims l = dims 0 * ∏ l ∈ Finset.Ioi (0 : Fin (n + 1)), dims l := by
  have huniv : (Finset.univ : Finset (Fin (n + 1))) = insert 0 (Finset.Ioi 0) := by
    ext j
    simp only [Finset.mem_univ, Finset.mem_insert, Finset.mem_Ioi, true_iff, Fin.lt_def,
      Fin.ext_iff, Fin.val_zero]
    omega
  rw [huniv, Finset.prod_insert (by simp)]

theorem setDimensions_strided (m : Mesh n) (dims : IntVec n) (hpos : ∀ i, 0 < dims i)
    (hfit : ∏ l, dims l < 2147483648) :
    (m.setDimensions dims).mesh.dimensions_ = dims ∧ Strided (m.setDimensions dims).mesh ∧
    (m.setDimensions dims).mesh.size_ = ∏ l, dims l := by
  have hc : setDimensionsCheck dims (n + 1) (Nat.le_refl _) = false :=
    (setDimensionsCheck_false_iff dims (n + 1) (Nat.le_refl _)).2 (fun i _ => hpos i)
  have hoff := offsetsLoop_spec dims m.offsets_ hpos hfit n (Nat.le_refl _)
  have hsize : wrap (setDimensionsOffsets dims m.offsets_ n (Nat.le_refl _) 0 * dims 0)
      = setDimensionsOffsets dims m.offsets_ n (Nat.le_refl _) 0 * dims 0 ∧
      setDimensionsOffsets dims m.offsets_ n (Nat.le_refl _) 0 * dims 0 = ∏ l, dims l := by
    have hu := univ_prod_eq dims
    have hp : 0 < ∏ l, dims l := Finset.prod_pos (fun l _ => hpos l)
    rw [hoff 0 (by simp), mul_comm, ← hu]
    exact ⟨wrap_of_range (by linarith) hfit, rfl⟩
  unfold setDimensions
  simp only [hc]
  refine ⟨rfl, ⟨hpos, ?_, ?_, ?_⟩, ?_⟩
  · show setDimensionsOffsets dims m.offsets_ n (Nat.le_refl _) (Fin.last n) = 1
    rw [hoff (Fin.last n) (by simp), Ioi_last_prod dims (Fin.last n) rfl]
  · intro i hi
    show setDimensionsOffsets dims m.offsets_ n (Nat.le_refl _) ⟨i, Nat.lt_succ_of_lt hi⟩
      = setDimensionsOffsets dims m.offsets_ n (Nat.le_refl _) ⟨i + 1, Nat.succ_lt_succ hi⟩
        * dims ⟨i + 1, Nat.succ_lt_succ hi⟩
    rw [hoff _ (by simp), hoff _ (by simp),
      Ioi_prod_step dims ⟨i, Nat.lt_succ_of_lt hi⟩ ⟨i + 1, Nat.succ_lt_succ hi⟩ rfl, mul_comm]
  · exact hsize.1
  · exact hsize.1.trans hsize.2

theorem Ioi_eq_insert_succ (i : Nat) (hi : i < n) :
    Finset.Ioi (⟨i, Nat.lt_succ_of_lt hi⟩ : Fin (n + 1))
      = insert (⟨i + 1, Nat.succ_lt_succ hi⟩ : Fin (n + 1))
          (Finset.Ioi ⟨i + 1, Nat.succ_lt_succ hi⟩) := by
  ext j
  simp only [Finset.mem_Ioi, Finset.mem_insert, Fin.lt_def, Fin.ext_iff]
  omega

theorem Strided.offsets_eq_prod {m : Mesh n} (hm : Strided m) (k : Nat) (i : Nat)
    (hi : i < n + 1) (hk : n - k ≤ i) :
    m.offsets_ ⟨i, hi⟩ = ∏ j ∈ Finset.Ioi (⟨i, hi⟩ : Fin (n + 1)), m.dimensions_ j := by
  obtain ⟨_, hlast, hstep, _⟩ := hm
  induction k generalizing i with
  | zero =>
    have hin : i = n := by omega
    subst hin
    have hempty : Finset.Ioi (⟨i, hi⟩ : Fin (i + 1)) = ∅ := by
      ext j
      simp only [Finset.mem_Ioi, Fin.lt_def, Finset.not_mem_empty, iff_false]
      omega
    rw [hempty, Finset.prod_empty]
    exact hlast
  | succ k ih =>
    by_cases hik : n - k ≤ i
    · exact ih i hi hik
    · have hin : i < n := by omega
      rw [hstep i hin, ih (i + 1) (by omega) (by omega), Ioi_eq_insert_succ i hin,
        Finset.prod_insert (by simp), mul_comm]

theorem Strided.size_eq_prod {m : Mesh n} (hm : Strided m) :
    m.size_ = ∏ j, m.dimensions_ j := by
  have h0 := hm.offsets_eq_prod n 0 (Nat.succ_pos n) (by omega)
  have huniv : (Finset.univ : Finset (Fin (n + 1))) = insert 0 (Finset.Ioi 0) := by
    ext j
    simp only [Finset.mem_univ, Finset.mem_insert, Finset.mem_Ioi, true_iff, Fin.lt_def,
      Fin.ext_iff, Fin.val_zero]
    omega
  rw [hm.2.2.2, huniv, Finset.prod_insert (by simp), mul_comm]
  congr 1

/-- C5: `setDimensions(dims)` throws if and only if at least one entry of `dims`
is `<= 0`, and it succeeds if and only if all entries are positive. -/
theorem setDimensions_throws_iff (m : Mesh n) (dims : IntVec n) :
    ((m.setDimensions dims).threw = true ↔ ∃ i, dims i ≤ 0) ∧
    ((m.setDimensions dims).threw = false ↔ ∀ i, 0 < dims i) := by
  have h := setDimensions_threw_false_iff m dims
  refine ⟨?_, h⟩
  constructor
  · intro ht
    by_contra hne
    push_neg at hne
    rw [h.2 hne] at ht
    exact Bool.false_ne_true ht
  · rintro ⟨i, hi⟩
    by_contra hne
    have hf : (m.setDimensions dims).threw = false := by simpa using hne
    have := h.1 hf i
    omega

/-- C6 (as amended): after a successful `setDimensions(dims)` whose dimensions have a
product below `2^31` (the number of mesh points fits in an `int`), `dimensions_` equals
`dims`, `offsets_[D-1] = 1`, every `offsets_[i]` is the product of the `dims[j]` with
`j > i`, `size_` is the product of all dimensions, and
`size_ = offsets_[0] * dimensions_[0]`. -/
theorem setDimensions_state (m : Mesh n) (dims : IntVec n)
    (hok : (m.setDimensions dims).threw = false) (hfit : ∏ j, dims j < 2147483648) :
    (m.setDimensions dims).mesh.dimensions_ = dims ∧
    (m.setDimensions dims).mesh.offsets_ (Fin.last n) = 1 ∧
    (∀ i, (m.setDimensions dims).mesh.offsets_ i = ∏ j ∈ Finset.Ioi i, dims j) ∧
    (m.setDimensions dims).mesh.size_ = ∏ j, dims j ∧
    (m.setDimensions dims).mesh.size_
      = (m.setDimensions dims).mesh.offsets_ 0 * (m.setDimensions dims).mesh.dimensions_ 0 := by
  have hpos := (setDimensions_threw_false_iff m dims).1 hok
  obtain ⟨hd, hs, hsz⟩ := setDimensions_strided m dims hpos hfit
  refine ⟨hd, hs.2.1, ?_, hsz, hs.2.2.2⟩
  intro i
  have := hs.offsets_eq_prod n i.val i.isLt (by omega)
  rw [hd] at this
  exact this

/-- Witness for C6: the 2 x 3 x 4 mesh is re-dimensioned to 4 x 3 x 2. -/
theorem setDimensions_state_witness :
    (setDimensions mesh234 ![4, 3, 2]).threw = false ∧
    ∏ j, (![4, 3, 2] : IntVec 2) j < 2147483648 ∧
    ((setDimensions mesh234 ![4, 3, 2]).mesh.dimensions_ = ![4, 3, 2] ∧
     (setDimensions mesh234 ![4, 3, 2]).mesh.offsets_ (Fin.last 2) = 1 ∧
     (∀ i, (setDimensions mesh234 ![4, 3, 2]).mesh.offsets_ i
        = ∏ j ∈ Finset.Ioi i, (![4, 3, 2] : IntVec 2) j) ∧
     (setDimensions mesh234 ![4, 3, 2]).mesh.size_
        = ∏ j, (![4, 3, 2] : IntVec 2) j ∧
     (setDimensions mesh234 ![4, 3, 2]).mesh.size_
        = (setDimensions mesh234 ![4, 3, 2]).mesh.offsets_ 0
          * (setDimensions mesh234 ![4, 3, 2]).mesh.dimensions_ 0) :=
  ⟨by decide, by decide, setDimensions_state _ _ (by decide) (by decide)⟩

/-- Counterexample to C6 as stated: `setDimensions` succeeds on the dimensions
50000 x 50000, and `size_` is then -1794967296, not the product 2500000000. -/
theorem setDimensions_state_overflow :
    (setDimensions zeroed (![50000, 50000] : IntVec 1)).threw = false ∧
    (setDimensions zeroed (![50000, 50000] : IntVec 1)).mesh.size_ = -1794967296 ∧
    ∏ j, (![50000, 50000] : IntVec 1) j = 2500000000 ∧
    ¬ ((setDimensions zeroed (![50000, 50000] : IntVec 1)).mesh.size_
        = ∏ j, (![50000, 50000] : IntVec 1) j) := by
  refine ⟨by decide, by decide, by decide, by decide⟩

/-- C7: when `setDimensions` throws, `dimensions_`, `offsets_` and `size_` are what
they were before the call. -/
theorem setDimensions_atomic (m : Mesh n) (dims : IntVec n)
    (hthrow : (m.setDimensions dims).threw = true) :
    (m.setDimensions dims).mesh.dimensions_ = m.dimensions_ ∧
    (m.setDimensions dims).mesh.offsets_ = m.offsets_ ∧
    (m.setDimensions dims).mesh.size_ = m.size_ := by
  unfold setDimensions at hthrow ⊢
  by_cases hc : setDimensionsCheck dims (n + 1) (Nat.le_refl _) = true
  · simp [hc]
  · have hf : setDimensionsCheck dims (n + 1) (Nat.le_refl _) = false := by simpa using hc
    simp [hf] at hthrow

/-- Witness for C7: the second entry of the new dimensions is invalid. -/
theorem setDimensions_atomic_witness :
    (setDimensions mesh234 ![5, 0, 7]).threw = true ∧
    ((setDimensions mesh234 ![5, 0, 7]).mesh.dimensions_ = mesh234.dimensions_ ∧
     (setDimensions mesh234 ![5, 0, 7]).mesh.offsets_ = mesh234.offsets_ ∧
     (setDimensions mesh234 ![5, 0, 7]).mesh.size_ = mesh234.size_) :=
  ⟨by decide, setDimensions_atomic _ _ (by decide)⟩

theorem tdiv_add_mul_self {q r b : Int} (hq : 0 ≤ q) (hr : 0 ≤ r) (hrb : r < b) :
    Int.tdiv (r + q * b) b = q := by
  have hb : 0 < b := lt_of_le_of_lt hr hrb
  have ha : 0 ≤ r + q * b := add_nonneg hr (mul_nonneg hq hb.le)
  rw [Int.tdiv_eq_ediv ha hb.le, Int.add_mul_ediv_right _ _ hb.ne', Int.ediv_eq_zero_of_lt hr hrb,
    zero_add]

theorem Strided.offsets_pos {m : Mesh n} (hm : Strided m) (i : Fin (n + 1)) :
    0 < m.offsets_ i := by
  have h := hm.offsets_eq_prod n i.val i.isLt (by omega)
  have e : (⟨i.val, i.isLt⟩ : Fin (n + 1)) = i := rfl
  rw [e] at h
  rw [h]
  exact Finset.prod_pos (fun j _ => hm.1 j)

theorem rankLoop_isSome_iff (m : Mesh n) (p : IntVec n) (k : Nat) (h : k ≤ n) :
    (rankLoop m p k h).isSome = true ↔
      ∀ i : Fin (n + 1), i.val < k → 0 ≤ p i ∧ p i < m.dimensions_ i := by
  induction k with
  | zero => simp [rankLoop]
  | succ k ih =>
    have ih' := ih (Nat.le_of_succ_le h)
    constructor
    · intro hs i hi
      simp only [rankLoop] at hs
      cases hr : rankLoop m p k (Nat.le_of_succ_le h) with
      | none => simp [hr] at hs
      | some r =>
        rw [hr] at hs ih'
        simp only at hs
        rcases Nat.lt_succ_iff_lt_or_eq.1 hi with hlt | heq
        · exact ih'.1 rfl i hlt
        · have e : i = ⟨k, Nat.lt_succ_of_le (Nat.le_of_succ_le h)⟩ := Fin.ext heq
          rw [e]
          by_cases h1 : p ⟨k, by omega⟩ ≥ 0
          · by_cases h2 : p ⟨k, by omega⟩ < m.dimensions_ ⟨k, by omega⟩
            · exact ⟨h1, h2⟩
            · simp [h1, h2] at hs
          · simp [h1] at hs
    · intro hall
      have hprev := ih'.2 (fun i hi => hall i (Nat.lt_succ_of_lt hi))
      obtain ⟨r, hr⟩ := Option.isSome_iff_exists.1 hprev
      have h1 := (hall ⟨k, by omega⟩ (Nat.lt_succ_self k)).1
      have h2 := (hall ⟨k, by omega⟩ (Nat.lt_succ_self k)).2
      simp only [rankLoop, hr, ge_iff_le, h1, h2, if_true, Option.isSome_some]

theorem rank_isSome_iff (m : Mesh n) (p : IntVec n) :
    (rank m p).isSome = true ↔ ∀ i, 0 ≤ p i ∧ p i < m.dimensions_ i := by
  constructor
  · intro hs i
    simp only [rank] at hs
    cases hr : rankLoop m p n (Nat.le_refl _) with
    | none => simp [hr] at hs
    | some r =>
      have hloop := (rankLoop_isSome_iff m p n (Nat.le_refl _)).1 (by simp [hr])
      rw [hr] at hs
      simp only at hs
      rcases Nat.lt_succ_iff_lt_or_eq.1 i.isLt with hlt | heq
      · exact hloop i hlt
      · have e : i = Fin.last n := Fin.ext heq
        subst e
        by_cases h1 : p (Fin.last n) ≥ 0
        · by_cases h2 : p (Fin.last n) < m.dimensions_ (Fin.last n)
          · exact ⟨h1, h2⟩
          · simp [h1, h2] at hs
        · simp [h1] at hs
  · intro hall
    have hloop := (rankLoop_isSome_iff m p n (Nat.le_refl _)).2 (fun i _ => hall i)
    obtain ⟨r, hr⟩ := Option.isSome_iff_exists.1 hloop
    have h1 := (hall (Fin.last n)).1
    have h2 := (hall (Fin.last n)).2
    simp only [rank, hr, ge_iff_le, h1, h2, if_true, Option.isSome_some]

theorem isInMeshLoop_iff (m : Mesh n) (p : IntVec n) (k : Nat) (h : k ≤ n + 1) :
    isInMeshLoop m p k h = true ↔
      ∀ i : Fin (n + 1), i.val < k → 0 ≤ p i ∧ p i < m.dimensions_ i := by
  induction k with
  | zero => simp [isInMeshLoop]
  | succ k ih =>
    have ih' := ih (Nat.le_of_succ_le h)
    simp only [isInMeshLoop]
    constructor
    · intro hs i hi
      by_cases h1 : p ⟨k, h⟩ < 0
      · simp [h1] at hs
      · by_cases h2 : p ⟨k, h⟩ ≥ m.dimensions_ ⟨k, h⟩
        · simp [h2] at hs
        · simp only [h1, h2, if_false] at hs
          rcases Nat.lt_succ_iff_lt_or_eq.1 hi with hlt | heq
          · exact ih'.1 hs i hlt
          · have e : i = ⟨k, h⟩ := Fin.ext heq
            subst e
            omega
    · intro hall
      have hprev := ih'.2 (fun i hi => hall i (Nat.lt_succ_of_lt hi))
      have h1 := (hall ⟨k, h⟩ (Nat.lt_succ_self k)).1
      have h2 := (hall ⟨k, h⟩ (Nat.lt_succ_self k)).2
      have h1' : ¬ p ⟨k, h⟩ < 0 := by omega
      have h2' : ¬ p ⟨k, h⟩ ≥ m.dimensions_ ⟨k, h⟩ := by omega
      simp only [h1', h2', if_false, hprev]

theorem isInMesh_iff_aux (m : Mesh n) (p : IntVec n) :
    isInMesh m p = true ↔ ∀ i, 0 ≤ p i ∧ p i < m.dimensions_ i := by
  unfold isInMesh
  rw [isInMeshLoop_iff]
  exact ⟨fun h i => h i i.isLt, fun h i _ => h i⟩

theorem rankSum_congr (m : Mesh n) (p q : IntVec n) (k : Nat) (h : k ≤ n)
    (hpq : ∀ i : Fin (n + 1), i.val < k → p i = q i) :
    rankSum m p k h = rankSum m q k h := by
  induction k with
  | zero => rfl
  | succ k ih =>
    simp only [rankSum]
    rw [ih (Nat.le_of_succ_le h) (fun i hi => hpq i (Nat.lt_succ_of_lt hi)),
      hpq ⟨k, Nat.lt_succ_of_lt h⟩ (Nat.lt_succ_self k)]

theorem update_of_lt (v : IntVec n) (j : Fin (n + 1)) (x : Int) (i : Fin (n + 1))
    (hi : i.val < j.val) : Function.update v j x i = v i := by
  rw [Function.update_noteq]
  intro hne
  rw [hne] at hi
  exact Nat.lt_irrefl _ hi

theorem Strided.tail_bounds {m : Mesh n} (hm : Strided m) (p : IntVec n)
    (hp : ∀ i, 0 ≤ p i ∧ p i < m.dimensions_ i) (j k : Nat) (hk : k ≤ n) (hj : k + j = n) :
    0 ≤ rankSum m p n (Nat.le_refl _) + p (Fin.last n) - rankSum m p k hk ∧
    rankSum m p n (Nat.le_refl _) + p (Fin.last n) - rankSum m p k hk
      < m.offsets_ ⟨k, Nat.lt_succ_of_le hk⟩ * m.dimensions_ ⟨k, Nat.lt_succ_of_le hk⟩ := by
  induction j generalizing k with
  | zero =>
    have hkn : k = n := by omega
    subst hkn
    have h1 := hp (Fin.last k)
    have h2 : m.offsets_ ⟨k, Nat.lt_succ_of_le hk⟩ = 1 := hm.2.1
    have h3 : (⟨k, Nat.lt_succ_of_le hk⟩ : Fin (k + 1)) = Fin.last k := rfl
    rw [h2, h3]
    constructor
    · linarith [h1.1]
    · linarith [h1.2]
  | succ j ih =>
    have hkn : k < n := by omega
    obtain ⟨ih1, ih2⟩ := ih (k + 1) hkn (by omega)
    have hstep := hm.2.2.1 k hkn
    have hpk := hp ⟨k, Nat.lt_succ_of_le hk⟩
    have hoff : 0 < m.offsets_ ⟨k, Nat.lt_succ_of_le hk⟩ := hm.offsets_pos _
    have e : rankSum m p (k + 1) hkn
        = rankSum m p k hk + p ⟨k, Nat.lt_succ_of_le hk⟩ * m.offsets_ ⟨k, Nat.lt_succ_of_le hk⟩ :=
      rfl
    have ih2' : rankSum m p n (Nat.le_refl _) + p (Fin.last n) - rankSum m p (k + 1) hkn
        < m.offsets_ ⟨k, Nat.lt_succ_of_le hk⟩ := by
      rw [hstep]
      exact ih2
    rw [e] at ih1 ih2'
    have hmul : 0 ≤ p ⟨k, Nat.lt_succ_of_le hk⟩ * m.offsets_ ⟨k, Nat.lt_succ_of_le hk⟩ :=
      mul_nonneg hpk.1 hoff.le
    have hmul2 : (p ⟨k, Nat.lt_succ_of_le hk⟩ + 1) * m.offsets_ ⟨k, Nat.lt_succ_of_le hk⟩
        ≤ m.dimensions_ ⟨k, Nat.lt_succ_of_le hk⟩ * m.offsets_ ⟨k, Nat.lt_succ_of_le hk⟩ :=
      mul_le_mul_of_nonneg_right (Int.add_one_le_of_lt hpk.2) hoff.le
    constructor
    · linarith
    · linarith

theorem rankSum_nonneg (m : Mesh n) (p : IntVec n) (hoff : ∀ i, 0 ≤ m.offsets_ i)
    (hp : ∀ i, 0 ≤ p i) (k : Nat) (h : k ≤ n) : 0 ≤ rankSum m p k h := by
  induction k with
  | zero => exact le_refl _
  | succ k ih =>
    have e : rankSum m p (k + 1) h
        = rankSum m p k (Nat.le_of_succ_le h)
          + p ⟨k, Nat.lt_succ_of_lt h⟩ * m.offsets_ ⟨k, Nat.lt_succ_of_lt h⟩ := rfl
    rw [e]
    exact add_nonneg (ih _) (mul_nonneg (hp _) (hoff _))

theorem Strided.rank_lt_size {m : Mesh n} (hm : Strided m) (p : IntVec n)
    (hp : ∀ i, 0 ≤ p i ∧ p i < m.dimensions_ i) :
    0 ≤ rankSum m p n (Nat.le_refl _) + p (Fin.last n) ∧
    rankSum m p n (Nat.le_refl _) + p (Fin.last n) < m.size_ := by
  have hb := hm.tail_bounds p hp n 0 (Nat.zero_le n) (Nat.zero_add n)
  have e0 : rankSum m p 0 (Nat.zero_le n) = 0 := rfl
  rw [e0, sub_zero] at hb
  refine ⟨hb.1, ?_⟩
  rw [hm.2.2.2]
  exact hb.2

theorem rankLoop_eq_some {m : Mesh n} (hm : Strided m) (hsize : m.size_ < 2147483648)
    (p : IntVec n) (hp : ∀ i, 0 ≤ p i ∧ p i < m.dimensions_ i) (k : Nat) (h : k ≤ n) :
    rankLoop m p k h = some (rankSum m p k h) := by
  induction k with
  | zero => rfl
  | succ k ih =>
    have hk : k < n + 1 := Nat.lt_succ_of_lt h
    have h1 : p ⟨k, hk⟩ ≥ 0 := (hp ⟨k, hk⟩).1
    have h2 := (hp ⟨k, hk⟩).2
    have e : rankSum m p (k + 1) h
        = rankSum m p k (Nat.le_of_succ_le h) + p ⟨k, hk⟩ * m.offsets_ ⟨k, hk⟩ := rfl
    have hprev : 0 ≤ rankSum m p k (Nat.le_of_succ_le h) :=
      rankSum_nonneg m p (fun i => (hm.offsets_pos i).le) (fun i => (hp i).1) k _
    have hmul : 0 ≤ p ⟨k, hk⟩ * m.offsets_ ⟨k, hk⟩ :=
      mul_nonneg (hp ⟨k, hk⟩).1 (hm.offsets_pos _).le
    have htail := (hm.tail_bounds p hp (n - (k + 1)) (k + 1) h (by omega)).1
    have hR := (hm.rank_lt_size p hp).2
    rw [e] at htail
    have hw1 : wrap (p ⟨k, hk⟩ * m.offsets_ ⟨k, hk⟩) = p ⟨k, hk⟩ * m.offsets_ ⟨k, hk⟩ :=
      wrap_of_range (by linarith) (by linarith)
    have hw2 : wrap (rankSum m p k (Nat.le_of_succ_le h) + p ⟨k, hk⟩ * m.offsets_ ⟨k, hk⟩)
        = rankSum m p k (Nat.le_of_succ_le h) + p ⟨k, hk⟩ * m.offsets_ ⟨k, hk⟩ :=
      wrap_of_range (by linarith) (by linarith)
    simp only [rankLoop, ih (Nat.le_of_succ_le h), h1, h2, if_true, hw1, hw2, e]

theorem rank_eq_some {m : Mesh n} (hm : Strided m) (hsize : m.size_ < 2147483648)
    (p : IntVec n) (hp : ∀ i, 0 ≤ p i ∧ p i < m.dimensions_ i) :
    rank m p = some (rankSum m p n (Nat.le_refl _) + p (Fin.last n)) := by
  have h1 : p (Fin.last n) ≥ 0 := (hp (Fin.last n)).1
  have h2 := (hp (Fin.last n)).2
  have hR := hm.rank_lt_size p hp
  have hw : wrap (rankSum m p n (Nat.le_refl _) + p (Fin.last n))
      = rankSum m p n (Nat.le_refl _) + p (Fin.last n) :=
    wrap_of_range (by linarith [hR.1]) (by linarith [hR.2])
  simp only [rank, rankLoop_eq_some hm hsize p hp, h1, h2, if_true, hw]

theorem positionLoopExact_rank {m : Mesh n} (hm : Strided m) (p : IntVec n)
    (hp : ∀ i, 0 ≤ p i ∧ p i < m.dimensions_ i) (k : Nat) (h : k ≤ n) :
    (positionLoopExact m (rankSum m p n (Nat.le_refl _) + p (Fin.last n)) k h).2
      = rankSum m p n (Nat.le_refl _) + p (Fin.last n) - rankSum m p k h ∧
    ∀ i : Fin (n + 1), i.val < k →
      (positionLoopExact m (rankSum m p n (Nat.le_refl _) + p (Fin.last n)) k h).1 i = p i := by
  induction k with
  | zero =>
    refine ⟨by simp [positionLoopExact, rankSum], ?_⟩
    intro i hi
    exact absurd hi (Nat.not_lt_zero _)
  | succ k ih =>
    have hk : k < n + 1 := Nat.lt_succ_of_lt h
    obtain ⟨ih1, ih2⟩ := ih (Nat.le_of_succ_le h)
    obtain ⟨hb1, hb2⟩ := hm.tail_bounds p hp (n - (k + 1)) (k + 1) h (by omega)
    rw [← hm.2.2.1 k h] at hb2
    have hpk := hp ⟨k, hk⟩
    have e : rankSum m p (k + 1) h
        = rankSum m p k (Nat.le_of_succ_le h) + p ⟨k, hk⟩ * m.offsets_ ⟨k, hk⟩ := rfl
    have hq : Int.tdiv (positionLoopExact m (rankSum m p n (Nat.le_refl _) + p (Fin.last n)) k
        (Nat.le_of_succ_le h)).2 (m.offsets_ ⟨k, hk⟩) = p ⟨k, hk⟩ := by
      rw [ih1]
      have e2 : rankSum m p n (Nat.le_refl _) + p (Fin.last n)
            - rankSum m p k (Nat.le_of_succ_le h)
          = (rankSum m p n (Nat.le_refl _) + p (Fin.last n) - rankSum m p (k + 1) h)
            + p ⟨k, hk⟩ * m.offsets_ ⟨k, hk⟩ := by
        rw [e]
        ring
      rw [e2]
      exact tdiv_add_mul_self hpk.1 hb1 hb2
    have e3 : positionLoopExact m (rankSum m p n (Nat.le_refl _) + p (Fin.last n)) (k + 1) h
        = (Function.update
            (positionLoopExact m (rankSum m p n (Nat.le_refl _) + p (Fin.last n)) k
              (Nat.le_of_succ_le h)).1 ⟨k, hk⟩
            (Int.tdiv (positionLoopExact m (rankSum m p n (Nat.le_refl _) + p (Fin.last n)) k
              (Nat.le_of_succ_le h)).2 (m.offsets_ ⟨k, hk⟩)),
          (positionLoopExact m (rankSum m p n (Nat.le_refl _) + p (Fin.last n)) k
              (Nat.le_of_succ_le h)).2
            - Int.tdiv (positionLoopExact m (rankSum m p n (Nat.le_refl _) + p (Fin.last n)) k
              (Nat.le_of_succ_le h)).2 (m.offsets_ ⟨k, hk⟩) * m.offsets_ ⟨k, hk⟩) := rfl
    rw [e3, hq]
    refine ⟨?_, ?_⟩
    · dsimp only
      rw [ih1, e]
      ring
    · intro i hi
      dsimp only
      rcases Nat.lt_succ_iff_lt_or_eq.1 hi with hlt | heq
      · rw [update_of_lt _ ⟨k, hk⟩ _ i hlt]
        exact ih2 i hlt
      · have e4 : i = ⟨k, hk⟩ := Fin.ext heq
        rw [e4, Function.update_same]

theorem positionExact_rankSum {m : Mesh n} (hm : Strided m) (p : IntVec n)
    (hp : ∀ i, 0 ≤ p i ∧ p i < m.dimensions_ i) :
    positionExact m (rankSum m p n (Nat.le_refl _) + p (Fin.last n)) = p := by
  obtain ⟨h1, h2⟩ := positionLoopExact_rank hm p hp n (Nat.le_refl _)
  funext i
  unfold positionExact
  rcases Nat.lt_succ_iff_lt_or_eq.1 i.isLt with hlt | heq
  · rw [update_of_lt _ (Fin.last n) _ i hlt]
    exact h2 i hlt
  · have e : i = Fin.last n := Fin.ext heq
    rw [e, Function.update_same, h1]
    ring

theorem positionLoopExact_inv {m : Mesh n} (hm : Strided m) (id : Int) (h0 : 0 ≤ id)
    (hlt : id < m.size_) (k : Nat) (h : k ≤ n) :
    0 ≤ (positionLoopExact m id k h).2 ∧
    (positionLoopExact m id k h).2
      < m.offsets_ ⟨k, Nat.lt_succ_of_le h⟩ * m.dimensions_ ⟨k, Nat.lt_succ_of_le h⟩ ∧
    (∀ i : Fin (n + 1), i.val < k →
      0 ≤ (positionLoopExact m id k h).1 i ∧ (positionLoopExact m id k h).1 i < m.dimensions_ i) ∧
    rankSum m (positionLoopExact m id k h).1 k h + (positionLoopExact m id k h).2 = id := by
  induction k with
  | zero =>
    refine ⟨h0, ?_, ?_, zero_add _⟩
    · have := hm.2.2.2
      rw [this] at hlt
      exact hlt
    · intro i hi
      exact absurd hi (Nat.not_lt_zero _)
  | succ k ih =>
    have hk : k < n + 1 := Nat.lt_succ_of_lt h
    obtain ⟨ih1, ih2, ih3, ih4⟩ := ih (Nat.le_of_succ_le h)
    have hoff : 0 < m.offsets_ ⟨k, hk⟩ := hm.offsets_pos _
    have hstep := hm.2.2.1 k h
    have e3 : positionLoopExact m id (k + 1) h
        = (Function.update (positionLoopExact m id k (Nat.le_of_succ_le h)).1 ⟨k, hk⟩
            (Int.tdiv (positionLoopExact m id k (Nat.le_of_succ_le h)).2 (m.offsets_ ⟨k, hk⟩)),
          (positionLoopExact m id k (Nat.le_of_succ_le h)).2
            - Int.tdiv (positionLoopExact m id k (Nat.le_of_succ_le h)).2 (m.offsets_ ⟨k, hk⟩)
              * m.offsets_ ⟨k, hk⟩) := rfl
    rw [e3]
    generalize positionLoopExact m id k (Nat.le_of_succ_le h) = s at ih1 ih2 ih3 ih4
    have hq : Int.tdiv s.2 (m.offsets_ ⟨k, hk⟩) = s.2 / m.offsets_ ⟨k, hk⟩ :=
      Int.tdiv_eq_ediv ih1 hoff.le
    have hq0 : 0 ≤ s.2 / m.offsets_ ⟨k, hk⟩ := Int.ediv_nonneg ih1 hoff.le
    have hq1 : s.2 / m.offsets_ ⟨k, hk⟩ < m.dimensions_ ⟨k, hk⟩ :=
      Int.ediv_lt_of_lt_mul hoff (by rw [mul_comm]; exact ih2)
    have hrem : s.2 - s.2 / m.offsets_ ⟨k, hk⟩ * m.offsets_ ⟨k, hk⟩
        = s.2 % m.offsets_ ⟨k, hk⟩ := by
      rw [Int.emod_def, mul_comm]
    rw [hq, hrem]
    dsimp only
    refine ⟨Int.emod_nonneg _ hoff.ne', ?_, ?_, ?_⟩
    · rw [← hstep]
      exact Int.emod_lt_of_pos _ hoff
    · intro i hi
      rcases Nat.lt_succ_iff_lt_or_eq.1 hi with hlt' | heq
      · rw [update_of_lt _ ⟨k, hk⟩ _ i hlt']
        exact ih3 i hlt'
      · have e : i = ⟨k, hk⟩ := Fin.ext heq
        rw [e, Function.update_same]
        exact ⟨hq0, hq1⟩
    · have e5 : rankSum m (Function.update s.1 ⟨k, hk⟩ (s.2 / m.offsets_ ⟨k, hk⟩)) (k + 1) h
          = rankSum m (Function.update s.1 ⟨k, hk⟩ (s.2 / m.offsets_ ⟨k, hk⟩)) k
              (Nat.le_of_succ_le h)
            + Function.update s.1 ⟨k, hk⟩ (s.2 / m.offsets_ ⟨k, hk⟩) ⟨k, hk⟩
              * m.offsets_ ⟨k, hk⟩ := rfl
      rw [e5, Function.update_same,
        rankSum_congr m (Function.update s.1 ⟨k, hk⟩ (s.2 / m.offsets_ ⟨k, hk⟩)) s.1 k
          (Nat.le_of_succ_le h) (fun i hi => update_of_lt _ _ _ i hi),
        ← hrem]
      linarith

theorem positionExact_inRange {m : Mesh n} (hm : Strided m) (id : Int) (h0 : 0 ≤ id)
    (hlt : id < m.size_) :
    (∀ i, 0 ≤ positionExact m id i ∧ positionExact m id i < m.dimensions_ i) ∧
    rankSum m (positionExact m id) n (Nat.le_refl _) + positionExact m id (Fin.last n) = id := by
  obtain ⟨h1, h2, h3, h4⟩ := positionLoopExact_inv hm id h0 hlt n (Nat.le_refl _)
  have hl : m.offsets_ ⟨n, Nat.lt_succ_of_le (Nat.le_refl n)⟩ = 1 := hm.2.1
  rw [hl, one_mul] at h2
  unfold positionExact
  generalize positionLoopExact m id n (Nat.le_refl _) = s at h1 h2 h3 h4
  constructor
  · intro i
    rcases Nat.lt_succ_iff_lt_or_eq.1 i.isLt with hlt' | heq
    · rw [update_of_lt _ (Fin.last n) _ i hlt']
      exact h3 i hlt'
    · have e : i = Fin.last n := Fin.ext heq
      rw [e, Function.update_same]
      exact ⟨h1, h2⟩
  · rw [Function.update_same, rankSum_congr m _ s.1 n (Nat.le_refl _)
      (fun i hi => update_of_lt _ (Fin.last n) _ i hi)]
    exact h4

theorem tdiv_mul_between (a b : Int) (hb : 0 < b) :
    (0 ≤ a → 0 ≤ Int.tdiv a b * b ∧ Int.tdiv a b * b ≤ a) ∧
    (a ≤ 0 → a ≤ Int.tdiv a b * b ∧ Int.tdiv a b * b ≤ 0) := by
  constructor
  · intro ha
    rw [Int.tdiv_eq_ediv ha hb.le]
    exact ⟨mul_nonneg (Int.ediv_nonneg ha hb.le) hb.le, Int.ediv_mul_le a hb.ne'⟩
  · intro ha
    have hc : 0 ≤ -a := by omega
    have e : a = -(-a) := by ring
    rw [e, Int.neg_tdiv, Int.tdiv_eq_ediv hc hb.le]
    have h1 := mul_nonneg (Int.ediv_nonneg hc hb.le) hb.le
    have h2 := Int.ediv_mul_le (-a) hb.ne'
    constructor <;> linarith

theorem positionLoop_eq_exact (m : Mesh n) (hoff : ∀ i, 0 < m.offsets_ i) (id : Int)
    (h0 : -2147483648 ≤ id) (h1 : id < 2147483648) (k : Nat) (h : k ≤ n) :
    positionLoop m id k h = some (positionLoopExact m id k h) ∧
    -2147483648 ≤ (positionLoopExact m id k h).2 ∧
    (positionLoopExact m id k h).2 < 2147483648 := by
  induction k with
  | zero => exact ⟨rfl, h0, h1⟩
  | succ k ih =>
    have hk : k < n + 1 := Nat.lt_succ_of_lt h
    obtain ⟨ih1, ih2, ih3⟩ := ih (Nat.le_of_succ_le h)
    have e3 : positionLoopExact m id (k + 1) h
        = (Function.update (positionLoopExact m id k (Nat.le_of_succ_le h)).1 ⟨k, hk⟩
            (Int.tdiv (positionLoopExact m id k (Nat.le_of_succ_le h)).2 (m.offsets_ ⟨k, hk⟩)),
          (positionLoopExact m id k (Nat.le_of_succ_le h)).2
            - Int.tdiv (positionLoopExact m id k (Nat.le_of_succ_le h)).2 (m.offsets_ ⟨k, hk⟩)
              * m.offsets_ ⟨k, hk⟩) := rfl
    have e4 : positionLoop m id (k + 1) h
        = match positionLoop m id k (Nat.le_of_succ_le h) with
          | none => none
          | some s =>
            match intDiv s.2 (m.offsets_ ⟨k, hk⟩) with
            | none => none
            | some q =>
              some (Function.update s.1 ⟨k, hk⟩ q,
                wrap (s.2 - wrap (q * m.offsets_ ⟨k, hk⟩))) := rfl
    rw [e3, e4, ih1]
    generalize positionLoopExact m id k (Nat.le_of_succ_le h) = s at ih2 ih3
    have hpos := hoff ⟨k, hk⟩
    generalize m.offsets_ ⟨k, hk⟩ = b at hpos
    have hdiv : intDiv s.2 b = some (Int.tdiv s.2 b) := by
      unfold intDiv
      have hb0 : ¬ b = 0 := hpos.ne'
      have hb1 : ¬ (s.2 = -2147483648 ∧ b = -1) := fun hh => by omega
      simp only [hb0, hb1, if_false]
    have hbt := tdiv_mul_between s.2 b hpos
    have hq : -2147483648 ≤ Int.tdiv s.2 b * b ∧ Int.tdiv s.2 b * b < 2147483648 ∧
        -2147483648 ≤ s.2 - Int.tdiv s.2 b * b ∧ s.2 - Int.tdiv s.2 b * b < 2147483648 := by
      rcases le_total 0 s.2 with hs | hs
      · have := hbt.1 hs
        refine ⟨?_, ?_, ?_, ?_⟩ <;> linarith [this.1, this.2]
      · have := hbt.2 hs
        refine ⟨?_, ?_, ?_, ?_⟩ <;> linarith [this.1, this.2]
    have hw1 : wrap (Int.tdiv s.2 b * b) = Int.tdiv s.2 b * b := wrap_of_range hq.1 hq.2.1
    have hw2 : wrap (s.2 - Int.tdiv s.2 b * b) = s.2 - Int.tdiv s.2 b * b :=
      wrap_of_range hq.2.2.1 hq.2.2.2
    simp only [hdiv, hw1, hw2]
    exact ⟨trivial, hq.2.2.1, hq.2.2.2⟩

theorem position_eq_exact (m : Mesh n) (hoff : ∀ i, 0 < m.offsets_ i) (id : Int)
    (h0 : -2147483648 ≤ id) (h1 : id < 2147483648) :
    position m id = some (positionExact m id) := by
  have h := (positionLoop_eq_exact m hoff id h0 h1 n (Nat.le_refl _)).1
  unfold position positionExact
  rw [h]

theorem shiftCoordinate_fst_snd (m : Mesh n) (c : Int) (i : Fin (n + 1)) :
    (shiftCoordinate m c i).2 = c - (shiftCoordinate m c i).1 * m.dimensions_ i := rfl

theorem shiftCoordinate_range (m : Mesh n) (c : Int) (i : Fin (n + 1))
    (hpos : 0 < m.dimensions_ i) :
    0 ≤ (shiftCoordinate m c i).2 ∧ (shiftCoordinate m c i).2 < m.dimensions_ i := by
  rw [shiftCoordinate_fst_snd]
  unfold shiftCoordinate
  generalize m.dimensions_ i = d at hpos
  by_cases hc : c ≥ 0
  · simp only [hc, if_true]
    rw [Int.tdiv_eq_ediv hc hpos.le]
    have h1 := Int.emod_def c d
    have h2 := Int.emod_nonneg c hpos.ne'
    have h3 := Int.emod_lt_of_pos c hpos
    constructor <;> linarith
  · simp only [hc, if_false]
    have ha : 0 ≤ -(c + 1) := by omega
    have e : c + 1 = -(-(c + 1)) := by ring
    rw [e, Int.neg_tdiv, Int.tdiv_eq_ediv ha hpos.le]
    have h1 := Int.emod_def (-(c + 1)) d
    have h2 := Int.emod_nonneg (-(c + 1)) hpos.ne'
    have h3 := Int.emod_lt_of_pos (-(c + 1)) hpos
    constructor <;> linarith

/-- C4: for every integer coordinate `c` and every axis `i` with a positive dimension
`d`, `shift(c, i)` returns `s` and leaves `c'` with `c = c' + s*d` and `0 <= c' < d`;
`s` is the floor quotient of `c` by `d` and `c'` is `c` modulo `d`. -/
theorem shiftCoordinate_spec (m : Mesh n) (c : Int) (i : Fin (n + 1))
    (hpos : 0 < m.dimensions_ i) :
    c = (shiftCoordinate m c i).2 + (shiftCoordinate m c i).1 * m.dimensions_ i ∧
    0 ≤ (shiftCoordinate m c i).2 ∧ (shiftCoordinate m c i).2 < m.dimensions_ i ∧
    (shiftCoordinate m c i).1 = Int.fdiv c (m.dimensions_ i) ∧
    (shiftCoordinate m c i).2 = Int.fmod c (m.dimensions_ i) ∧
    (shiftCoordinate m c i).1 = ⌊(c : ℚ) / (m.dimensions_ i : ℚ)⌋ := by
  obtain ⟨h1, h2⟩ := shiftCoordinate_range m c i hpos
  have h0 : c = (shiftCoordinate m c i).2 + (shiftCoordinate m c i).1 * m.dimensions_ i := by
    rw [shiftCoordinate_fst_snd]
    ring
  have hu := (@Int.ediv_emod_unique c (m.dimensions_ i) (shiftCoordinate m c i).2
    (shiftCoordinate m c i).1 hpos).2 ⟨by rw [mul_comm]; exact h0.symm, h1, h2⟩
  refine ⟨h0, h1, h2, ?_, ?_, ?_⟩
  · rw [Int.fdiv_eq_ediv _ hpos.le]
    exact hu.1.symm
  · rw [Int.fmod_eq_emod _ hpos.le]
    exact hu.2.symm
  · rw [hu.1.symm]
    obtain ⟨d, hd⟩ := Int.eq_ofNat_of_zero_le hpos.le
    rw [hd]
    exact (Rat.floor_intCast_div_natCast c d).symm

/-- Witness for C4: the coordinate -1 on a one-dimensional mesh of size 10. -/
theorem shiftCoordinate_spec_witness :
    0 < mesh10.dimensions_ 0 ∧
    ((-1 : Int) = (shiftCoordinate mesh10 (-1) 0).2
        + (shiftCoordinate mesh10 (-1) 0).1 * mesh10.dimensions_ 0 ∧
     0 ≤ (shiftCoordinate mesh10 (-1) 0).2 ∧
     (shiftCoordinate mesh10 (-1) 0).2 < mesh10.dimensions_ 0 ∧
     (shiftCoordinate mesh10 (-1) 0).1 = Int.fdiv (-1) (mesh10.dimensions_ 0) ∧
     (shiftCoordinate mesh10 (-1) 0).2 = Int.fmod (-1) (mesh10.dimensions_ 0) ∧
     (shiftCoordinate mesh10 (-1) 0).1 = ⌊((-1 : Int) : ℚ) / (mesh10.dimensions_ 0 : ℚ)⌋) ∧
    shiftCoordinate mesh10 (-1) 0 = (-1, 9) :=
  ⟨by decide, shiftCoordinate_spec mesh10 (-1) 0 (by decide), by decide⟩

/-- C1 (as amended): for every dimension vector with all entries positive whose product
is below `2^31` (the number of mesh points fits in an `int`) and every position `p`
with `0 <= p[i] < dimensions[i]` on every axis, `rank(p)` returns a value `r` and
`position(r)` returns `p`. -/
theorem position_rank (m0 : Mesh n) (dims : IntVec n) (hpos : ∀ i, 0 < dims i)
    (hfit : ∏ j, dims j < 2147483648)
    (p : IntVec n) (hp : ∀ i, 0 ≤ p i ∧ p i < dims i) :
    ∃ r, rank (m0.setDimensions dims).mesh p = some r ∧
      position (m0.setDimensions dims).mesh r = some p := by
  obtain ⟨hd, hs, hsz⟩ := setDimensions_strided m0 dims hpos hfit
  have hsize : (m0.setDimensions dims).mesh.size_ < 2147483648 := by
    rw [hsz]
    exact hfit
  have hp' : ∀ i, 0 ≤ p i ∧ p i < (m0.setDimensions dims).mesh.dimensions_ i := by
    rw [hd]
    exact hp
  have hR := hs.rank_lt_size p hp'
  refine ⟨_, rank_eq_some hs hsize p hp', ?_⟩
  rw [position_eq_exact _ hs.offsets_pos _ (by linarith [hR.1]) (by linarith [hR.2]),
    positionExact_rankSum hs p hp']

/-- Witness for C1: the position (1, 2, 3) of the 2 x 3 x 4 mesh. -/
theorem position_rank_witness :
    (∀ i, 0 < (![2, 3, 4] : IntVec 2) i) ∧
    ∏ j, (![2, 3, 4] : IntVec 2) j < 2147483648 ∧
    (∀ i, 0 ≤ (![1, 2, 3] : IntVec 2) i ∧ (![1, 2, 3] : IntVec 2) i < (![2, 3, 4] : IntVec 2) i) ∧
    ∃ r, rank (setDimensions zeroed ![2, 3, 4]).mesh ![1, 2, 3] = some r ∧
      position (setDimensions zeroed ![2, 3, 4]).mesh r = some ![1, 2, 3] :=
  ⟨by decide, by decide, by decide,
    position_rank zeroed ![2, 3, 4] (by decide) (by decide) ![1, 2, 3] (by decide)⟩

/-- Counterexample to C1 as stated: on the mesh built from the positive dimensions
50000 x 50000 the in-range position (49999, 49999) has rank -1794967297, and `position`
of that rank is (-35899, -17297). -/
theorem position_rank_overflow :
    (∀ i, 0 < (![50000, 50000] : IntVec 1) i) ∧
    (∀ i, 0 ≤ (![49999, 49999] : IntVec 1) i ∧
      (![49999, 49999] : IntVec 1) i < (![50000, 50000] : IntVec 1) i) ∧
    rank (setDimensions zeroed ![50000, 50000]).mesh ![49999, 49999] = some (-1794967297) ∧
    (position (setDimensions zeroed (![50000, 50000] : IntVec 1)).mesh (-1794967297)).map
        List.ofFn = some [-35899, -17297] ∧
    ¬ ∃ r, rank (setDimensions zeroed ![50000, 50000]).mesh ![49999, 49999] = some r ∧
      position (setDimensions zeroed ![50000, 50000]).mesh r = some ![49999, 49999] := by
  refine ⟨by decide, by decide, by decide, by decide, ?_⟩
  rintro ⟨r, hr, hq⟩
  have h1 : rank (setDimensions zeroed ![50000, 50000]).mesh ![49999, 49999]
      = some (-1794967297) := by decide
  rw [h1] at hr
  have hr' := Option.some.inj hr
  subst hr'
  have h2 := congrArg (Option.map (fun q : IntVec 1 => q 0)) hq
  revert h2
  decide

/-- C2 (as amended): for every mesh set up by `setDimensions` with all dimensions
positive and a product below `2^31`, and every `id` with `0 <= id < size`,
`position(id)` returns a position inside the mesh and `rank` of it returns `id`. -/
theorem rank_position (m0 : Mesh n) (dims : IntVec n) (hpos : ∀ i, 0 < dims i)
    (hfit : ∏ j, dims j < 2147483648)
    (id : Int) (h0 : 0 ≤ id) (hlt : id < (m0.setDimensions dims).mesh.size_) :
    ∃ q, position (m0.setDimensions dims).mesh id = some q ∧
      (∀ i, 0 ≤ q i ∧ q i < dims i) ∧
      isInMesh (m0.setDimensions dims).mesh q = true ∧
      rank (m0.setDimensions dims).mesh q = some id := by
  obtain ⟨hd, hs, hsz⟩ := setDimensions_strided m0 dims hpos hfit
  have hsize : (m0.setDimensions dims).mesh.size_ < 2147483648 := by
    rw [hsz]
    exact hfit
  obtain ⟨h1, h2⟩ := positionExact_inRange hs id h0 hlt
  refine ⟨_, position_eq_exact _ hs.offsets_pos id (by linarith) (by linarith), ?_,
    (isInMesh_iff_aux _ _).2 h1, ?_⟩
  · rw [hd] at h1
    exact h1
  · rw [rank_eq_some hs hsize _ h1, h2]

/-- Witness for C2: the rank 17 on the 2 x 3 x 4 mesh. -/
theorem rank_position_witness :
    (∀ i, 0 < (![2, 3, 4] : IntVec 2) i) ∧
    ∏ j, (![2, 3, 4] : IntVec 2) j < 2147483648 ∧ (0 : Int) ≤ 17 ∧
    17 < (setDimensions zeroed ![2, 3, 4]).mesh.size_ ∧
    (∃ q, position (setDimensions zeroed ![2, 3, 4]).mesh 17 = some q ∧
      (∀ i, 0 ≤ q i ∧ q i < (![2, 3, 4] : IntVec 2) i) ∧
      isInMesh (setDimensions zeroed ![2, 3, 4]).mesh q = true ∧
      rank (setDimensions zeroed ![2, 3, 4]).mesh q = some 17) :=
  ⟨by decide, by decide, by decide, by decide,
    rank_position zeroed ![2, 3, 4] (by decide) (by decide) 17 (by decide) (by decide)⟩

/-- Counterexample to C2 as stated: with the positive dimensions
1073741825 x 2 x 2147483647 the strides overflow, `size_` is 2147483646, and for the
id 2 of `[0, size)` `position` returns (-1, 0, 0), which is not in the mesh. -/
theorem rank_position_overflow :
    (∀ i, 0 < (![1073741825, 2, 2147483647] : IntVec 2) i) ∧
    (0 : Int) ≤ 2 ∧
    2 < (setDimensions zeroed (![1073741825, 2, 2147483647] : IntVec 2)).mesh.size_ ∧
    (position (setDimensions zeroed (![1073741825, 2, 2147483647] : IntVec 2)).mesh 2).map
        List.ofFn = some [-1, 0, 0] ∧
    ¬ ∃ q, position (setDimensions zeroed (![1073741825, 2, 2147483647] : IntVec 2)).mesh 2
          = some q ∧
        isInMesh (setDimensions zeroed (![1073741825, 2, 2147483647] : IntVec 2)).mesh q
          = true := by
  refine ⟨by decide, by decide, by decide, by decide, ?_⟩
  rintro ⟨q, hq, hin⟩
  have h2 := congrArg (Option.map
    (isInMesh (setDimensions zeroed (![1073741825, 2, 2147483647] : IntVec 2)).mesh)) hq
  rw [Option.map_some', hin] at h2
  revert h2
  decide

/-- C3 (as amended): for every mesh with all dimensions positive and a product below
`2^31`, `rank` restricted to in-mesh positions is a bijection onto `[0, size)`: every
in-mesh `p` has a rank `r` with `0 <= r < size`, two in-mesh positions with the same
rank are equal, and every integer of `[0, size)` is the rank of some in-mesh position. -/
theorem rank_bijection (m0 : Mesh n) (dims : IntVec n) (hpos : ∀ i, 0 < dims i)
    (hfit : ∏ j, dims j < 2147483648) :
    (∀ p : IntVec n, (∀ i, 0 ≤ p i ∧ p i < dims i) →
      ∃ r, rank (m0.setDimensions dims).mesh p = some r ∧
        0 ≤ r ∧ r < (m0.setDimensions dims).mesh.size_) ∧
    (∀ p q : IntVec n, (∀ i, 0 ≤ p i ∧ p i < dims i) → (∀ i, 0 ≤ q i ∧ q i < dims i) →
      rank (m0.setDimensions dims).mesh p = rank (m0.setDimensions dims).mesh q → p = q) ∧
    (∀ id : Int, 0 ≤ id → id < (m0.setDimensions dims).mesh.size_ →
      ∃ p : IntVec n, (∀ i, 0 ≤ p i ∧ p i < dims i) ∧
        rank (m0.setDimensions dims).mesh p = some id) := by
  obtain ⟨hd, hs, hsz⟩ := setDimensions_strided m0 dims hpos hfit
  have hsize : (m0.setDimensions dims).mesh.size_ < 2147483648 := by
    rw [hsz]
    exact hfit
  have hconv : ∀ p : IntVec n, (∀ i, 0 ≤ p i ∧ p i < dims i) →
      ∀ i, 0 ≤ p i ∧ p i < (m0.setDimensions dims).mesh.dimensions_ i := by
    intro p hp
    rw [hd]
    exact hp
  refine ⟨?_, ?_, ?_⟩
  · intro p hp
    have hb := hs.rank_lt_size p (hconv p hp)
    exact ⟨_, rank_eq_some hs hsize p (hconv p hp), hb.1, hb.2⟩
  · intro p q hp hq hpq
    rw [rank_eq_some hs hsize p (hconv p hp), rank_eq_some hs hsize q (hconv q hq)] at hpq
    have he := Option.some.inj hpq
    have h1 := positionExact_rankSum hs p (hconv p hp)
    have h2 := positionExact_rankSum hs q (hconv q hq)
    rw [he] at h1
    rw [← h1, h2]
  · intro id h0 hlt
    obtain ⟨h1, h2⟩ := positionExact_inRange hs id h0 hlt
    refine ⟨positionExact (m0.setDimensions dims).mesh id, ?_, ?_⟩
    · rw [hd] at h1
      exact h1
    · rw [rank_eq_some hs hsize _ h1, h2]

/-- Witness for C3: the 2 x 3 x 4 mesh. -/
theorem rank_bijection_witness :
    (∀ i, 0 < (![2, 3, 4] : IntVec 2) i) ∧
    ∏ j, (![2, 3, 4] : IntVec 2) j < 2147483648 ∧
    ((∀ p : IntVec 2, (∀ i, 0 ≤ p i ∧ p i < (![2, 3, 4] : IntVec 2) i) →
      ∃ r, rank (setDimensions zeroed ![2, 3, 4]).mesh p = some r ∧
        0 ≤ r ∧ r < (setDimensions zeroed ![2, 3, 4]).mesh.size_) ∧
    (∀ p q : IntVec 2, (∀ i, 0 ≤ p i ∧ p i < (![2, 3, 4] : IntVec 2) i) →
      (∀ i, 0 ≤ q i ∧ q i < (![2, 3, 4] : IntVec 2) i) →
      rank (setDimensions zeroed ![2, 3, 4]).mesh p
        = rank (setDimensions zeroed ![2, 3, 4]).mesh q → p = q) ∧
    (∀ id : Int, 0 ≤ id → id < (setDimensions zeroed ![2, 3, 4]).mesh.size_ →
      ∃ p : IntVec 2, (∀ i, 0 ≤ p i ∧ p i < (![2, 3, 4] : IntVec 2) i) ∧
        rank (setDimensions zeroed ![2, 3, 4]).mesh p = some id)) :=
  ⟨by decide, by decide, rank_bijection zeroed ![2, 3, 4] (by decide) (by decide)⟩

/-- Counterexample to C3 as stated: on the mesh built from the positive dimensions
50000 x 50000, `size_` is -1794967296 and the in-mesh position (49999, 49999) has rank
-1794967297, which is not in `[0, size)`. -/
theorem rank_bijection_overflow :
    (∀ i, 0 < (![50000, 50000] : IntVec 1) i) ∧
    (setDimensions zeroed (![50000, 50000] : IntVec 1)).mesh.size_ = -1794967296 ∧
    rank (setDimensions zeroed ![50000, 50000]).mesh ![49999, 49999] = some (-1794967297) ∧
    ¬ (∀ p : IntVec 1, (∀ i, 0 ≤ p i ∧ p i < (![50000, 50000] : IntVec 1) i) →
      ∃ r, rank (setDimensions zeroed ![50000, 50000]).mesh p = some r ∧
        0 ≤ r ∧ r < (setDimensions zeroed (![50000, 50000] : IntVec 1)).mesh.size_) := by
  refine ⟨by decide, by decide, by decide, ?_⟩
  intro hall
  obtain ⟨r, hr, hr0, _⟩ := hall ![49999, 49999] (by decide)
  have h1 : rank (setDimensions zeroed ![50000, 50000]).mesh ![49999, 49999]
      = some (-1794967297) := by decide
  rw [h1] at hr
  have hr' := Option.some.inj hr
  omega

/-- C8: `isInMesh(position)` is a total function (no throw, no assertion) and returns
`true` if and only if `0 <= position[i] < dimensions[i]` on every axis `i`. -/
theorem isInMesh_iff (m : Mesh n) (p : IntVec n) :
    isInMesh m p = true ↔ ∀ i, 0 ≤ p i ∧ p i < m.dimensions_ i :=
  isInMesh_iff_aux m p

/-- C10: the assertions inside `rank` all hold if and only if `isInMesh(p)` is true;
`rank` fails an assertion if and only if some coordinate, on any axis, is out of
`[0, dimensions[i])`. -/
theorem rank_asserts_iff (m : Mesh n) (p : IntVec n) :
    ((rank m p).isSome = true ↔ isInMesh m p = true) ∧
    (rank m p = none ↔ ∃ i, p i < 0 ∨ m.dimensions_ i ≤ p i) := by
  have h1 := rank_isSome_iff m p
  have h2 := isInMesh_iff_aux m p
  refine ⟨h1.trans h2.symm, ?_⟩
  rw [← Option.not_isSome_iff_eq_none, h1]
  push_neg
  constructor
  · rintro ⟨i, hi⟩
    refine ⟨i, ?_⟩
    by_cases h : 0 ≤ p i
    · exact Or.inr (hi h)
    · exact Or.inl (by omega)
  · rintro ⟨i, hi⟩
    refine ⟨i, fun h => ?_⟩
    omega

theorem update_of_ne_val (v : IntVec n) (j : Fin (n + 1)) (x : Int) (i : Fin (n + 1))
    (hi : i.val ≠ j.val) : Function.update v j x i = v i := by
  rw [Function.update_noteq]
  intro hne
  exact hi (congrArg Fin.val hne)

theorem shiftLoop_spec (m : Mesh n) (p : IntVec n) (k : Nat) (h : k ≤ n + 1) :
    (∀ i : Fin (n + 1), i.val < k →
      (shiftLoop m p k h).1 i = (shiftCoordinate m (p i) i).1 ∧
      (shiftLoop m p k h).2 i = (shiftCoordinate m (p i) i).2) ∧
    (∀ i : Fin (n + 1), k ≤ i.val → (shiftLoop m p k h).2 i = p i) := by
  induction k with
  | zero =>
    exact ⟨fun i hi => absurd hi (Nat.not_lt_zero _), fun i _ => rfl⟩
  | succ k ih =>
    obtain ⟨ih1, ih2⟩ := ih (Nat.le_of_succ_le h)
    have e : shiftLoop m p (k + 1) h
        = (Function.update (shiftLoop m p k (Nat.le_of_succ_le h)).1 ⟨k, h⟩
            (shiftCoordinate m ((shiftLoop m p k (Nat.le_of_succ_le h)).2 ⟨k, h⟩) ⟨k, h⟩).1,
          Function.update (shiftLoop m p k (Nat.le_of_succ_le h)).2 ⟨k, h⟩
            (shiftCoordinate m ((shiftLoop m p k (Nat.le_of_succ_le h)).2 ⟨k, h⟩) ⟨k, h⟩).2) :=
      rfl
    rw [e]
    generalize shiftLoop m p k (Nat.le_of_succ_le h) = s at ih1 ih2
    have hk : s.2 ⟨k, h⟩ = p ⟨k, h⟩ := ih2 ⟨k, h⟩ (Nat.le_refl k)
    rw [hk]
    dsimp only
    constructor
    · intro i hi
      rcases Nat.lt_succ_iff_lt_or_eq.1 hi with hlt | heq
      · rw [update_of_ne_val _ ⟨k, h⟩ _ i (Nat.ne_of_lt hlt),
          update_of_ne_val _ ⟨k, h⟩ _ i (Nat.ne_of_lt hlt)]
        exact ih1 i hlt
      · have e2 : i = ⟨k, h⟩ := Fin.ext heq
        rw [e2, Function.update_same, Function.update_same]
        exact ⟨rfl, rfl⟩
    · intro i hi
      rw [update_of_ne_val _ ⟨k, h⟩ _ i (Nat.ne_of_gt hi)]
      exact ih2 i (Nat.le_of_succ_le hi)

/-- C9: on a mesh with all dimensions positive, `shift(position)` applies the scalar
shift on each axis independently: with `shifts` the returned vector and `p'` the value
of the argument afterwards, `p[i] = p'[i] + shifts[i]*dimensions[i]` on every axis and
`isInMesh(p')` is true. -/
theorem shift_spec (m : Mesh n) (hpos : ∀ i, 0 < m.dimensions_ i) (p : IntVec n) :
    (∀ i, (shift m p).1 i = (shiftCoordinate m (p i) i).1 ∧
      (shift m p).2 i = (shiftCoordinate m (p i) i).2) ∧
    (∀ i, p i = (shift m p).2 i + (shift m p).1 i * m.dimensions_ i) ∧
    isInMesh m (shift m p).2 = true := by
  have hloop := (shiftLoop_spec m p (n + 1) (Nat.le_refl _)).1
  have hall : ∀ i, (shift m p).1 i = (shiftCoordinate m (p i) i).1 ∧
      (shift m p).2 i = (shiftCoordinate m (p i) i).2 := fun i => hloop i i.isLt
  refine ⟨hall, ?_, ?_⟩
  · intro i
    rw [(hall i).1, (hall i).2, shiftCoordinate_fst_snd]
    ring
  · rw [isInMesh_iff_aux]
    intro i
    rw [(hall i).2]
    exact shiftCoordinate_range m (p i) i (hpos i)

/-- Witness for C9: the position (-1, 7, 4) on the 2 x 3 x 4 mesh. -/
theorem shift_spec_witness :
    (∀ i, 0 < mesh234.dimensions_ i) ∧
    ((∀ i, (shift mesh234 ![-1, 7, 4]).1 i
        = (shiftCoordinate mesh234 ((![-1, 7, 4] : IntVec 2) i) i).1 ∧
      (shift mesh234 ![-1, 7, 4]).2 i
        = (shiftCoordinate mesh234 ((![-1, 7, 4] : IntVec 2) i) i).2) ∧
    (∀ i, (![-1, 7, 4] : IntVec 2) i
      = (shift mesh234 ![-1, 7, 4]).2 i + (shift mesh234 ![-1, 7, 4]).1 i * mesh234.dimensions_ i) ∧
    isInMesh mesh234 (shift mesh234 ![-1, 7, 4]).2 = true) ∧
    (shift mesh234 ![-1, 7, 4]).1 = ![-1, 2, 1] ∧ (shift mesh234 ![-1, 7, 4]).2 = ![1, 1, 0] :=
  ⟨by decide, shift_spec mesh234 (by decide) ![-1, 7, 4], by decide, by decide⟩

theorem rankSum_eq_sum (m : Mesh n) (p : IntVec n) (k : Nat) (h : k ≤ n) :
    rankSum m p k h
      = ∑ i : Fin k, p (Fin.castLE (Nat.le_succ_of_le h) i)
          * m.offsets_ (Fin.castLE (Nat.le_succ_of_le h) i) := by
  induction k with
  | zero => rfl
  | succ k ih =>
    rw [Fin.sum_univ_castSucc]
    have e : rankSum m p (k + 1) h
        = rankSum m p k (Nat.le_of_succ_le h)
          + p ⟨k, Nat.lt_succ_of_lt h⟩ * m.offsets_ ⟨k, Nat.lt_succ_of_lt h⟩ := rfl
    rw [e, ih (Nat.le_of_succ_le h)]
    rfl

theorem rankSum_add_last_eq_sum (m : Mesh n) (p : IntVec n)
    (hlast : m.offsets_ (Fin.last n) = 1) :
    rankSum m p n (Nat.le_refl _) + p (Fin.last n) = ∑ i, p i * m.offsets_ i := by
  rw [Fin.sum_univ_castSucc, rankSum_eq_sum, hlast, mul_one]
  rfl

/-- C14 (as amended): for every mesh set up by `setDimensions` with all dimensions
positive and a product below `2^31`, and every in-mesh position `p`, `rank(p)` returns
the sum over all axes `i` of `p[i] * offsets[i]`. -/
theorem rank_eq_sum (m0 : Mesh n) (dims : IntVec n) (hpos : ∀ i, 0 < dims i)
    (hfit : ∏ j, dims j < 2147483648)
    (p : IntVec n) (hp : ∀ i, 0 ≤ p i ∧ p i < dims i) :
    rank (m0.setDimensions dims).mesh p
      = some (∑ i, p i * (m0.setDimensions dims).mesh.offsets_ i) := by
  obtain ⟨hd, hs, hsz⟩ := setDimensions_strided m0 dims hpos hfit
  have hsize : (m0.setDimensions dims).mesh.size_ < 2147483648 := by
    rw [hsz]
    exact hfit
  have hp' : ∀ i, 0 ≤ p i ∧ p i < (m0.setDimensions dims).mesh.dimensions_ i := by
    rw [hd]
    exact hp
  rw [rank_eq_some hs hsize p hp', rankSum_add_last_eq_sum _ p hs.2.1]

/-- Witness for C14: the position (1, 2, 3) of the 2 x 3 x 4 mesh has rank
1*12 + 2*4 + 3*1 = 23. -/
theorem rank_eq_sum_witness :
    (∀ i, 0 < (![2, 3, 4] : IntVec 2) i) ∧
    ∏ j, (![2, 3, 4] : IntVec 2) j < 2147483648 ∧
    (∀ i, 0 ≤ (![1, 2, 3] : IntVec 2) i ∧ (![1, 2, 3] : IntVec 2) i < (![2, 3, 4] : IntVec 2) i) ∧
    rank (setDimensions zeroed ![2, 3, 4]).mesh ![1, 2, 3]
      = some (∑ i, (![1, 2, 3] : IntVec 2) i * (setDimensions zeroed ![2, 3, 4]).mesh.offsets_ i) ∧
    rank (setDimensions zeroed ![2, 3, 4]).mesh ![1, 2, 3] = some 23 :=
  ⟨by decide, by decide, by decide,
    rank_eq_sum zeroed ![2, 3, 4] (by decide) (by decide) ![1, 2, 3] (by decide), by decide⟩

/-- Counterexample to C14 as stated: on the mesh built from the positive dimensions
50000 x 50000 the in-mesh position (49999, 49999) has rank -1794967297, while the sum
of `p[i] * offsets[i]` is 2499999999. -/
theorem rank_eq_sum_overflow :
    (∀ i, 0 < (![50000, 50000] : IntVec 1) i) ∧
    (∀ i, 0 ≤ (![49999, 49999] : IntVec 1) i ∧
      (![49999, 49999] : IntVec 1) i < (![50000, 50000] : IntVec 1) i) ∧
    rank (setDimensions zeroed ![50000, 50000]).mesh ![49999, 49999] = some (-1794967297) ∧
    ∑ i, (![49999, 49999] : IntVec 1) i
        * (setDimensions zeroed (![50000, 50000] : IntVec 1)).mesh.offsets_ i = 2499999999 ∧
    ¬ (rank (setDimensions zeroed ![50000, 50000]).mesh ![49999, 49999]
        = some (∑ i, (![49999, 49999] : IntVec 1) i
            * (setDimensions zeroed (![50000, 50000] : IntVec 1)).mesh.offsets_ i)) := by
  refine ⟨by decide, by decide, by decide, by decide, by decide⟩

theorem positionLoopExact_sum (m : Mesh n) (id : Int) (k : Nat) (h : k ≤ n) :
    rankSum m (positionLoopExact m id k h).1 k h + (positionLoopExact m id k h).2 = id := by
  induction k with
  | zero => exact zero_add _
  | succ k ih =>
    have hk : k < n + 1 := Nat.lt_succ_of_lt h
    have ih' := ih (Nat.le_of_succ_le h)
    have e3 : positionLoopExact m id (k + 1) h
        = (Function.update (positionLoopExact m id k (Nat.le_of_succ_le h)).1 ⟨k, hk⟩
            (Int.tdiv (positionLoopExact m id k (Nat.le_of_succ_le h)).2 (m.offsets_ ⟨k, hk⟩)),
          (positionLoopExact m id k (Nat.le_of_succ_le h)).2
            - Int.tdiv (positionLoopExact m id k (Nat.le_of_succ_le h)).2 (m.offsets_ ⟨k, hk⟩)
              * m.offsets_ ⟨k, hk⟩) := rfl
    rw [e3]
    generalize positionLoopExact m id k (Nat.le_of_succ_le h) = s at ih'
    generalize Int.tdiv s.2 (m.offsets_ ⟨k, hk⟩) = q
    dsimp only
    have e5 : rankSum m (Function.update s.1 ⟨k, hk⟩ q) (k + 1) h
        = rankSum m (Function.update s.1 ⟨k, hk⟩ q) k (Nat.le_of_succ_le h)
          + Function.update s.1 ⟨k, hk⟩ q ⟨k, hk⟩ * m.offsets_ ⟨k, hk⟩ := rfl
    rw [e5, Function.update_same,
      rankSum_congr m (Function.update s.1 ⟨k, hk⟩ q) s.1 k (Nat.le_of_succ_le h)
        (fun i hi => update_of_lt _ _ _ i hi)]
    linarith

theorem positionExact_sum (m : Mesh n) (id : Int) :
    rankSum m (positionExact m id) n (Nat.le_refl _) + positionExact m id (Fin.last n) = id := by
  have h := positionLoopExact_sum m id n (Nat.le_refl _)
  unfold positionExact
  generalize positionLoopExact m id n (Nat.le_refl _) = s at h
  rw [Function.update_same, rankSum_congr m _ s.1 n (Nat.le_refl _)
    (fun i hi => update_of_lt _ (Fin.last n) _ i hi)]
  exact h

/-- C15 (as amended): for every mesh with all dimensions positive and a product below
`2^31`, and every `int` value `id`, `position(id)` returns a position, and that position
is in the mesh if and only if `0 <= id < size`. -/
theorem isInMesh_position_iff (m0 : Mesh n) (dims : IntVec n) (hpos : ∀ i, 0 < dims i)
    (hfit : ∏ j, dims j < 2147483648)
    (id : Int) (hmin : -2147483648 ≤ id) (hmax : id < 2147483648) :
    ∃ q, position (m0.setDimensions dims).mesh id = some q ∧
      (isInMesh (m0.setDimensions dims).mesh q = true
        ↔ 0 ≤ id ∧ id < (m0.setDimensions dims).mesh.size_) := by
  obtain ⟨_, hs, _⟩ := setDimensions_strided m0 dims hpos hfit
  refine ⟨_, position_eq_exact _ hs.offsets_pos id hmin hmax, ?_⟩
  rw [isInMesh_iff_aux]
  constructor
  · intro hin
    have hb := hs.rank_lt_size _ hin
    rw [positionExact_sum (m0.setDimensions dims).mesh id] at hb
    exact hb
  · rintro ⟨h0, hlt⟩
    exact (positionExact_inRange hs id h0 hlt).1

/-- Witness for C15: the id -5 on the 2 x 3 x 4 mesh; also 24 (= size) is mapped outside
the mesh and 23 inside. -/
theorem isInMesh_position_iff_witness :
    (∀ i, 0 < (![2, 3, 4] : IntVec 2) i) ∧
    ∏ j, (![2, 3, 4] : IntVec 2) j < 2147483648 ∧
    (-2147483648 : Int) ≤ -5 ∧ (-5 : Int) < 2147483648 ∧
    (∃ q, position (setDimensions zeroed ![2, 3, 4]).mesh (-5) = some q ∧
      (isInMesh (setDimensions zeroed ![2, 3, 4]).mesh q = true
        ↔ (0 : Int) ≤ -5 ∧ -5 < (setDimensions zeroed ![2, 3, 4]).mesh.size_)) ∧
    (position (setDimensions zeroed (![2, 3, 4] : IntVec 2)).mesh (-5)).map
        (isInMesh (setDimensions zeroed ![2, 3, 4]).mesh) = some false ∧
    (position (setDimensions zeroed (![2, 3, 4] : IntVec 2)).mesh 24).map
        (isInMesh (setDimensions zeroed ![2, 3, 4]).mesh) = some false ∧
    (position (setDimensions zeroed (![2, 3, 4] : IntVec 2)).mesh 23).map
        (isInMesh (setDimensions zeroed ![2, 3, 4]).mesh) = some true :=
  ⟨by decide, by decide, by decide, by decide,
    isInMesh_position_iff zeroed ![2, 3, 4] (by decide) (by decide) (-5) (by decide) (by decide),
    by decide, by decide, by decide⟩

/-- Counterexample to C15 as stated: on the mesh built from the positive dimensions
50000 x 50000, `size_` is -1794967296, so the id 5 is not in `[0, size)`, yet
`position(5)` is (0, 5), which is in the mesh. -/
theorem isInMesh_position_iff_overflow :
    (∀ i, 0 < (![50000, 50000] : IntVec 1) i) ∧
    (position (setDimensions zeroed (![50000, 50000] : IntVec 1)).mesh 5).map List.ofFn
      = some [0, 5] ∧
    (position (setDimensions zeroed (![50000, 50000] : IntVec 1)).mesh 5).map
        (isInMesh (setDimensions zeroed ![50000, 50000]).mesh) = some true ∧
    ¬ ((0 : Int) ≤ 5 ∧ 5 < (setDimensions zeroed (![50000, 50000] : IntVec 1)).mesh.size_) ∧
    ¬ ∃ q, position (setDimensions zeroed (![50000, 50000] : IntVec 1)).mesh 5 = some q ∧
      (isInMesh (setDimensions zeroed (![50000, 50000] : IntVec 1)).mesh q = true
        ↔ (0 : Int) ≤ 5 ∧ 5 < (setDimensions zeroed (![50000, 50000] : IntVec 1)).mesh.size_) := by
  refine ⟨by decide, by decide, by decide, by decide, ?_⟩
  rintro ⟨q, hq, hiff⟩
  have h2 := congrArg (Option.map
    (isInMesh (setDimensions zeroed (![50000, 50000] : IntVec 1)).mesh)) hq
  rw [Option.map_some'] at h2
  have h3 : (position (setDimensions zeroed (![50000, 50000] : IntVec 1)).mesh 5).map
      (isInMesh (setDimensions zeroed ![50000, 50000]).mesh) = some true := by decide
  rw [h3] at h2
  have hin := (Option.some.inj h2).symm
  have hbad := hiff.1 hin
  revert hbad
  decide

theorem shiftCoordinate_of_inRange (m : Mesh n) (c : Int) (i : Fin (n + 1))
    (h0 : 0 ≤ c) (hlt : c < m.dimensions_ i) : shiftCoordinate m c i = (0, c) := by
  unfold shiftCoordinate
  have hc : c ≥ 0 := h0
  have hz : Int.tdiv c (m.dimensions_ i) = 0 := by
    rw [Int.tdiv_eq_ediv h0 (le_trans h0 hlt.le)]
    exact Int.ediv_eq_zero_of_lt h0 hlt
  simp only [hc, if_true, hz, zero_mul, sub_zero]

theorem shift_of_inRange (m : Mesh n) (p : IntVec n)
    (hp : ∀ i, 0 ≤ p i ∧ p i < m.dimensions_ i) : shift m p = (fun _ => 0, p) := by
  have hloop := (shiftLoop_spec m p (n + 1) (Nat.le_refl _)).1
  apply Prod.ext
  · funext i
    have := (hloop i i.isLt).1
    rw [shiftCoordinate_of_inRange m (p i) i (hp i).1 (hp i).2] at this
    exact this
  · funext i
    have := (hloop i i.isLt).2
    rw [shiftCoordinate_of_inRange m (p i) i (hp i).1 (hp i).2] at this
    exact this

/-- C16: on a mesh with all dimensions positive, the scalar shift of a coordinate `c`
with `0 <= c < dimensions[i]` returns 0 and leaves `c` unchanged, and a second call of
`shift(p)` right after a first one returns the zero vector and changes nothing. -/
theorem shift_idempotent (m : Mesh n) (hpos : ∀ i, 0 < m.dimensions_ i) (p : IntVec n) :
    (∀ (c : Int) (i : Fin (n + 1)), 0 ≤ c → c < m.dimensions_ i →
      shiftCoordinate m c i = (0, c)) ∧
    shift m (shift m p).2 = (fun _ => 0, (shift m p).2) := by
  refine ⟨fun c i h0 hlt => shiftCoordinate_of_inRange m c i h0 hlt, ?_⟩
  apply shift_of_inRange
  intro i
  have hloop := (shiftLoop_spec m p (n + 1) (Nat.le_refl _)).1 i i.isLt
  have e : (shift m p).2 i = (shiftCoordinate m (p i) i).2 := hloop.2
  rw [e]
  exact shiftCoordinate_range m (p i) i (hpos i)

/-- Witness for C16: the position (-1, 7, 4) on the 2 x 3 x 4 mesh. -/
theorem shift_idempotent_witness :
    (∀ i, 0 < mesh234.dimensions_ i) ∧
    ((∀ (c : Int) (i : Fin 3), 0 ≤ c → c < mesh234.dimensions_ i →
      shiftCoordinate mesh234 c i = (0, c)) ∧
     shift mesh234 (shift mesh234 ![-1, 7, 4]).2
      = (fun _ => 0, (shift mesh234 ![-1, 7, 4]).2)) :=
  ⟨by decide, shift_idempotent mesh234 (by decide) ![-1, 7, 4]⟩

theorem lex_trichotomy (p q : IntVec n) :
    p = q ∨ (∃ i, (∀ j, j < i → p j = q j) ∧ p i < q i) ∨
      (∃ i, (∀ j, j < i → q j = p j) ∧ q i < p i) := by
  by_cases h : p = q
  · exact Or.inl h
  · right
    have hex : ∃ k : Nat, ∃ hk : k < n + 1, p ⟨k, hk⟩ ≠ q ⟨k, hk⟩ := by
      obtain ⟨a, ha⟩ := Function.ne_iff.1 h
      exact ⟨a.val, a.isLt, ha⟩
    classical
    obtain ⟨hk, hne⟩ := Nat.find_spec hex
    have hmin : ∀ j : Fin (n + 1), j.val < Nat.find hex → p j = q j := by
      intro j hj
      by_contra hc
      exact Nat.find_min hex hj ⟨j.isLt, hc⟩
    rcases lt_or_gt_of_ne hne with hlt | hgt
    · exact Or.inl ⟨⟨Nat.find hex, hk⟩, fun j hj => hmin j hj, hlt⟩
    · exact Or.inr ⟨⟨Nat.find hex, hk⟩, fun j hj => (hmin j hj).symm, hgt⟩

theorem Strided.rank_lt_of_lex {m : Mesh n} (hm : Strided m) (p q : IntVec n)
    (hp : ∀ i, 0 ≤ p i ∧ p i < m.dimensions_ i) (hq : ∀ i, 0 ≤ q i ∧ q i < m.dimensions_ i)
    (i : Fin (n + 1)) (hpre : ∀ j, j < i → p j = q j) (hlt : p i < q i) :
    rankSum m p n (Nat.le_refl _) + p (Fin.last n)
      < rankSum m q n (Nat.le_refl _) + q (Fin.last n) := by
  obtain ⟨k, hk⟩ := i
  rcases Nat.lt_succ_iff_lt_or_eq.1 hk with hkn | hkn
  · have hcongr : rankSum m p k (Nat.le_of_lt hkn) = rankSum m q k (Nat.le_of_lt hkn) :=
      rankSum_congr m p q k (Nat.le_of_lt hkn) (fun j hj => hpre j hj)
    have hbp := (hm.tail_bounds p hp (n - (k + 1)) (k + 1) hkn (by omega)).2
    have hbq := (hm.tail_bounds q hq (n - (k + 1)) (k + 1) hkn (by omega)).1
    rw [← hm.2.2.1 k hkn] at hbp
    have ep : rankSum m p (k + 1) hkn
        = rankSum m p k (Nat.le_of_lt hkn) + p ⟨k, hk⟩ * m.offsets_ ⟨k, hk⟩ := rfl
    have eq : rankSum m q (k + 1) hkn
        = rankSum m q k (Nat.le_of_lt hkn) + q ⟨k, hk⟩ * m.offsets_ ⟨k, hk⟩ := rfl
    rw [ep] at hbp
    rw [eq] at hbq
    have hoff : 0 < m.offsets_ ⟨k, hk⟩ := hm.offsets_pos _
    have hmul : (p ⟨k, hk⟩ + 1) * m.offsets_ ⟨k, hk⟩ ≤ q ⟨k, hk⟩ * m.offsets_ ⟨k, hk⟩ :=
      mul_le_mul_of_nonneg_right (Int.add_one_le_of_lt hlt) hoff.le
    linarith
  · subst hkn
    have hcongr : rankSum m p k (Nat.le_refl _) = rankSum m q k (Nat.le_refl _) :=
      rankSum_congr m p q k (Nat.le_refl _) (fun j hj => hpre j hj)
    have e : (⟨k, hk⟩ : Fin (k + 1)) = Fin.last k := rfl
    rw [e] at hlt
    rw [hcongr]
    linarith

/-- C17 (as amended): for every mesh with positive dimensions whose product is below
`2^31` and every two in-mesh positions `p` and `q`, `rank(p) < rank(q)` if and only if
`p` precedes `q` in the lexicographic order with axis 0 most significant. -/
theorem rank_lt_iff_lex (m0 : Mesh n) (dims : IntVec n) (hpos : ∀ i, 0 < dims i)
    (hfit : ∏ j, dims j < 2147483648)
    (p q : IntVec n) (hp : ∀ i, 0 ≤ p i ∧ p i < dims i) (hq : ∀ i, 0 ≤ q i ∧ q i < dims i) :
    ∃ r s, rank (m0.setDimensions dims).mesh p = some r ∧
      rank (m0.setDimensions dims).mesh q = some s ∧
      (r < s ↔ ∃ i, (∀ j, j < i → p j = q j) ∧ p i < q i) := by
  obtain ⟨hd, hs, hsz⟩ := setDimensions_strided m0 dims hpos hfit
  have hsize : (m0.setDimensions dims).mesh.size_ < 2147483648 := by
    rw [hsz]
    exact hfit
  have hp' : ∀ i, 0 ≤ p i ∧ p i < (m0.setDimensions dims).mesh.dimensions_ i := by
    rw [hd]
    exact hp
  have hq' : ∀ i, 0 ≤ q i ∧ q i < (m0.setDimensions dims).mesh.dimensions_ i := by
    rw [hd]
    exact hq
  refine ⟨_, _, rank_eq_some hs hsize p hp', rank_eq_some hs hsize q hq', ?_⟩
  constructor
  · intro hlt
    rcases lex_trichotomy p q with h | h | h
    · rw [h] at hlt
      exact absurd hlt (lt_irrefl _)
    · exact h
    · obtain ⟨i, hpre, hi⟩ := h
      have := hs.rank_lt_of_lex q p hq' hp' i hpre hi
      exact absurd hlt (not_lt.2 this.le)
  · rintro ⟨i, hpre, hi⟩
    exact hs.rank_lt_of_lex p q hp' hq' i hpre hi

/-- Witness for C17: (0, 2, 3) precedes (1, 0, 0) on the 2 x 3 x 4 mesh, ranks 11 and 12. -/
theorem rank_lt_iff_lex_witness :
    (∀ i, 0 < (![2, 3, 4] : IntVec 2) i) ∧
    ∏ j, (![2, 3, 4] : IntVec 2) j < 2147483648 ∧
    (∀ i, 0 ≤ (![0, 2, 3] : IntVec 2) i ∧ (![0, 2, 3] : IntVec 2) i < (![2, 3, 4] : IntVec 2) i) ∧
    (∀ i, 0 ≤ (![1, 0, 0] : IntVec 2) i ∧ (![1, 0, 0] : IntVec 2) i < (![2, 3, 4] : IntVec 2) i) ∧
    (∃ r s, rank (setDimensions zeroed ![2, 3, 4]).mesh ![0, 2, 3] = some r ∧
      rank (setDimensions zeroed ![2, 3, 4]).mesh ![1, 0, 0] = some s ∧
      (r < s ↔ ∃ i, (∀ j, j < i → (![0, 2, 3] : IntVec 2) j = (![1, 0, 0] : IntVec 2) j) ∧
        (![0, 2, 3] : IntVec 2) i < (![1, 0, 0] : IntVec 2) i)) ∧
    rank (setDimensions zeroed ![2, 3, 4]).mesh ![0, 2, 3] = some 11 ∧
    rank (setDimensions zeroed ![2, 3, 4]).mesh ![1, 0, 0] = some 12 :=
  ⟨by decide, by decide, by decide, by decide,
    rank_lt_iff_lex zeroed ![2, 3, 4] (by decide) (by decide) ![0, 2, 3] ![1, 0, 0]
      (by decide) (by decide),
    by decide, by decide⟩

/-- Counterexample to C17 as stated: on the mesh built from the positive dimensions
50000 x 50000 the in-mesh position (0, 0) precedes (49999, 49999) lexicographically,
but their ranks are 0 and -1794967297. -/
theorem rank_lt_iff_lex_overflow :
    (∀ i, 0 < (![50000, 50000] : IntVec 1) i) ∧
    (∀ i, 0 ≤ (![0, 0] : IntVec 1) i ∧ (![0, 0] : IntVec 1) i < (![50000, 50000] : IntVec 1) i) ∧
    (∀ i, 0 ≤ (![49999, 49999] : IntVec 1) i ∧
      (![49999, 49999] : IntVec 1) i < (![50000, 50000] : IntVec 1) i) ∧
    rank (setDimensions zeroed ![50000, 50000]).mesh ![0, 0] = some 0 ∧
    rank (setDimensions zeroed ![50000, 50000]).mesh ![49999, 49999] = some (-1794967297) ∧
    (∃ i, (∀ j, j < i → (![0, 0] : IntVec 1) j = (![49999, 49999] : IntVec 1) j) ∧
      (![0, 0] : IntVec 1) i < (![49999, 49999] : IntVec 1) i) ∧
    ¬ ∃ r s, rank (setDimensions zeroed ![50000, 50000]).mesh ![0, 0] = some r ∧
      rank (setDimensions zeroed ![50000, 50000]).mesh ![49999, 49999] = some s ∧
      (r < s ↔ ∃ i, (∀ j, j < i → (![0, 0] : IntVec 1) j = (![49999, 49999] : IntVec 1) j) ∧
        (![0, 0] : IntVec 1) i < (![49999, 49999] : IntVec 1) i) := by
  have hlex : ∃ i, (∀ j, j < i → (![0, 0] : IntVec 1) j = (![49999, 49999] : IntVec 1) j) ∧
      (![0, 0] : IntVec 1) i < (![49999, 49999] : IntVec 1) i :=
    ⟨0, by decide, by decide⟩
  refine ⟨by decide, by decide, by decide, by decide, by decide, hlex, ?_⟩
  rintro ⟨r, s, hr, hs, hiff⟩
  have h1 : rank (setDimensions zeroed ![50000, 50000]).mesh ![0, 0] = some 0 := by decide
  have h2 : rank (setDimensions zeroed ![50000, 50000]).mesh ![49999, 49999]
      = some (-1794967297) := by decide
  rw [h1] at hr
  rw [h2] at hs
  have hr' := Option.some.inj hr
  have hs' := Option.some.inj hs
  have := hiff.2 hlex
  omega

theorem setDimensionsOffsets_indep (dims off1 off2 : IntVec n) (k : Nat) (h : k ≤ n) :
    ∀ i : Fin (n + 1), n - k ≤ i.val →
      setDimensionsOffsets dims off1 k h i = setDimensionsOffsets dims off2 k h i := by
  induction k with
  | zero =>
    intro i hi
    have hin : i = Fin.last n := Fin.ext (Nat.le_antisymm (Nat.le_of_lt_succ i.isLt) hi)
    rw [hin]
    have e : ∀ off : IntVec n, setDimensionsOffsets dims off 0 h (Fin.last n) = 1 :=
      fun off => Function.update_same (Fin.last n) 1 off
    rw [e off1, e off2]
  | succ k ih =>
    have ih' := ih (Nat.le_of_succ_le h)
    have hlt : n - k - 1 < n + 1 :=
      Nat.lt_succ_of_le (Nat.le_trans (Nat.sub_le _ _) (Nat.sub_le _ _))
    have hlt2 : n - k < n + 1 := Nat.lt_succ_of_le (Nat.sub_le _ _)
    have e : ∀ off : IntVec n, setDimensionsOffsets dims off (k + 1) h
        = Function.update (setDimensionsOffsets dims off k (Nat.le_of_succ_le h))
            ⟨n - k - 1, hlt⟩
            (wrap (setDimensionsOffsets dims off k (Nat.le_of_succ_le h) ⟨n - k, hlt2⟩
              * dims ⟨n - k, hlt2⟩)) := fun _ => rfl
    rw [e off1, e off2]
    intro i hi
    by_cases hik : n - k ≤ i.val
    · have hne : i ≠ ⟨n - k - 1, hlt⟩ := by
        intro hne
        have := congrArg Fin.val hne
        simp only at this
        omega
      rw [Function.update_noteq hne, Function.update_noteq hne]
      exact ih' i hik
    · have hi' : i = ⟨n - k - 1, hlt⟩ := Fin.ext (by simp only; omega)
      rw [hi', Function.update_same, Function.update_same, ih' ⟨n - k, hlt2⟩ (Nat.le_refl _)]

theorem setDimensions_canonical (m : Mesh n) (dims : IntVec n) (hpos : ∀ i, 0 < dims i) :
    (m.setDimensions dims).mesh.dimensions_ = dims ∧
    ∀ m1 : Mesh n, (m1.setDimensions dims).mesh = (m.setDimensions dims).mesh := by
  have hc : setDimensionsCheck dims (n + 1) (Nat.le_refl _) = false :=
    (setDimensionsCheck_false_iff dims (n + 1) (Nat.le_refl _)).2 (fun i _ => hpos i)
  have hoff : ∀ m1 : Mesh n, setDimensionsOffsets dims m1.offsets_ n (Nat.le_refl _)
      = setDimensionsOffsets dims m.offsets_ n (Nat.le_refl _) := by
    intro m1
    funext i
    exact setDimensionsOffsets_indep dims m1.offsets_ m.offsets_ n (Nat.le_refl _) i (by omega)
  unfold setDimensions
  simp only [hc]
  refine ⟨rfl, ?_⟩
  intro m1
  simp only [Bool.false_eq_true, if_false]
  rw [hoff m1]

theorem Reachable.canonical {m : Mesh n} (hr : Reachable m) :
    (∀ i, 0 < m.dimensions_ i) ∧
    ∀ m1 : Mesh n, (m1.setDimensions m.dimensions_).mesh = m := by
  have key : ∀ (m0 : Mesh n) (dims : IntVec n), (∀ i, 0 < dims i) →
      (∀ i, 0 < (m0.setDimensions dims).mesh.dimensions_ i) ∧
      ∀ m1 : Mesh n, (m1.setDimensions (m0.setDimensions dims).mesh.dimensions_).mesh
        = (m0.setDimensions dims).mesh := by
    intro m0 dims hpos
    obtain ⟨hd, hall⟩ := setDimensions_canonical m0 dims hpos
    rw [hd]
    exact ⟨hpos, hall⟩
  induction hr with
  | default => exact key zeroed (fun _ => 1) (fun _ => Int.one_pos)
  | ofDimensions dims hok =>
    exact key zeroed dims ((setDimensions_threw_false_iff _ _).1 hok)
  | copy other _ ih => exact ih
  | setDimensions m dims _ ih =>
    by_cases hok : (m.setDimensions dims).threw = false
    · exact key m dims ((setDimensions_threw_false_iff _ _).1 hok)
    · have ht : (m.setDimensions dims).threw = true := by simpa using hok
      have hsame : (m.setDimensions dims).mesh = m := by
        unfold Mesh.setDimensions at ht ⊢
        by_cases hc : setDimensionsCheck dims (n + 1) (Nat.le_refl _) = true
        · simp [hc]
        · simp [hc] at ht
      rw [hsame]
      exact ih
  | assign m other _ _ _ ih2 => exact key m other.dimensions_ ih2.1

/-- C18: for every reachable mesh `other` and every target, the assignment operator does
not throw and leaves the target with the dimensions, offsets and size of `other`, the
same state as the copy constructor produces. -/
theorem assign_eq_copy (target other : Mesh n) (hr : Reachable other) :
    (assign target other).threw = false ∧
    (assign target other).mesh.dimensions_ = other.dimensions_ ∧
    (assign target other).mesh.offsets_ = other.offsets_ ∧
    (assign target other).mesh.size_ = other.size_ ∧
    (assign target other).mesh = copy other := by
  obtain ⟨hpos, hcan⟩ := hr.canonical
  have hok : (assign target other).threw = false :=
    (setDimensions_threw_false_iff target other.dimensions_).2 hpos
  have heq : (assign target other).mesh = other := hcan target
  refine ⟨hok, ?_, ?_, ?_, ?_⟩
  · rw [heq]
  · rw [heq]
  · rw [heq]
  · rw [heq]
    rfl

/-- Witness for C18: the 2 x 3 x 4 mesh is assigned to a default-constructed mesh. -/
theorem assign_eq_copy_witness :
    Reachable mesh234 ∧
    ((assign (defaultMesh : Call 2).mesh mesh234).threw = false ∧
     (assign (defaultMesh : Call 2).mesh mesh234).mesh.dimensions_ = mesh234.dimensions_ ∧
     (assign (defaultMesh : Call 2).mesh mesh234).mesh.offsets_ = mesh234.offsets_ ∧
     (assign (defaultMesh : Call 2).mesh mesh234).mesh.size_ = mesh234.size_ ∧
     (assign (defaultMesh : Call 2).mesh mesh234).mesh = copy mesh234) :=
  ⟨Reachable.ofDimensions ![2, 3, 4] (by decide),
    assign_eq_copy _ mesh234 (Reachable.ofDimensions ![2, 3, 4] (by decide))⟩

end Mesh

namespace Fd1d

namespace Block

variable {F : Type}

theorem setLengths_inv (ops : DoubleOps F) (lengths : List F)
    (hall : ∀ l ∈ lengths, ops.isPos l = true) (b : Block F)
    (hds : b.ds_ = ops.div b.length (ops.ofInt b.ns_)) :
    ∃ b2, setLengths ops b lengths = some b2 ∧ b2.ns_ = b.ns_ ∧
      b2.ds_ = ops.div b2.length (ops.ofInt b2.ns_) := by
  induction lengths generalizing b with
  | nil => exact ⟨b, rfl, rfl, hds⟩
  | cons l ls ih =>
    have hl : ops.isPos l = true := hall l (List.mem_cons_self l ls)
    have e : setLength ops b l
        = some { length := l, ds_ := ops.div l (ops.ofInt b.ns_), ns_ := b.ns_ } := by
      simp [setLength, hl]
    obtain ⟨b2, h1, h2, h3⟩ :=
      ih (fun x hx => hall x (List.mem_cons_of_mem l hx))
        { length := l, ds_ := ops.div l (ops.ofInt b.ns_), ns_ := b.ns_ } rfl
    refine ⟨b2, ?_, h2, h3⟩
    simp only [setLengths, e]
    exact h1

theorem setDiscretization_fails (ops : DoubleOps F) (b : Block F) (targetStep newLength : F) :
    (ops.isPos b.length = false → setDiscretization ops b targetStep = none) ∧
    (ops.isPos targetStep = false → setDiscretization ops b targetStep = none) ∧
    (ops.isPos newLength = false → setLength ops b newLength = none) := by
  refine ⟨fun h => ?_, fun h => ?_, fun h => ?_⟩
  · simp [setDiscretization, h]
  · simp [setDiscretization, h]
  · simp [setLength, h]

/-- C12: for a positive block length and a positive step target, `setDiscretization`
returns, chooses `ns = round(length/targetStep)` with a minimum of 1 and sets
`ds = length/ns`; on any block `setLength(newLength)` with a positive `newLength` returns,
sets `ds = newLength/ns` and leaves `ns` unchanged; hence after `setDiscretization` and
any number of `setLength` calls the block has `ds = length/ns` with `ns >= 1`. -/
theorem ds_eq_length_div_ns (ops : DoubleOps F) (b : Block F) (targetStep : F)
    (lengths : List F) (hlen : ops.isPos b.length = true)
    (hstep : ops.isPos targetStep = true) (hall : ∀ l ∈ lengths, ops.isPos l = true) :
    ∃ b1, setDiscretization ops b targetStep = some b1 ∧
      b1.ns_ = max 1 (ops.round (ops.div b.length targetStep)) ∧
      1 ≤ b1.ns_ ∧
      b1.length = b.length ∧
      b1.ds_ = ops.div b1.length (ops.ofInt b1.ns_) ∧
      (∀ (c : Block F) (newLength : F), ops.isPos newLength = true →
        ∃ c1, setLength ops c newLength = some c1 ∧ c1.ns_ = c.ns_ ∧
          c1.length = newLength ∧ c1.ds_ = ops.div newLength (ops.ofInt c.ns_)) ∧
      ∃ b2, setLengths ops b1 lengths = some b2 ∧ 1 ≤ b2.ns_ ∧ b2.ns_ = b1.ns_ ∧
        b2.ds_ = ops.div b2.length (ops.ofInt b2.ns_) := by
  have e : setDiscretization ops b targetStep
      = some { length := b.length
               ds_ := ops.div b.length
                 (ops.ofInt (max 1 (ops.round (ops.div b.length targetStep))))
               ns_ := max 1 (ops.round (ops.div b.length targetStep)) } := by
    simp [setDiscretization, hlen, hstep]
  have h1 : (1 : Int) ≤ max 1 (ops.round (ops.div b.length targetStep)) := le_max_left _ _
  refine ⟨_, e, rfl, h1, rfl, rfl, ?_, ?_⟩
  · intro c newLength hpos
    refine ⟨{ length := newLength, ds_ := ops.div newLength (ops.ofInt c.ns_), ns_ := c.ns_ },
      ?_, rfl, rfl, rfl⟩
    simp [setLength, hpos]
  · obtain ⟨b2, h2, h3, h4⟩ := setLengths_inv ops lengths hall
      { length := b.length
        ds_ := ops.div b.length
          (ops.ofInt (max 1 (ops.round (ops.div b.length targetStep))))
        ns_ := max 1 (ops.round (ops.div b.length targetStep)) } rfl
    refine ⟨b2, h2, ?_, h3, h4⟩
    rw [h3]
    exact h1

/-- Witness for C12: length 1 and step target 1/100 in exact rational arithmetic, then
the lengths 2 and 3. -/
theorem ds_eq_length_div_ns_witness :
    ratOps.isPos (⟨1, 0, 0⟩ : Block ℚ).length = true ∧
    ratOps.isPos (1 / 100) = true ∧
    (∀ l ∈ ([2, 3] : List ℚ), ratOps.isPos l = true) ∧
    ∃ b1, setDiscretization ratOps ⟨1, 0, 0⟩ (1 / 100) = some b1 ∧
      b1.ns_ = max 1 (ratOps.round (ratOps.div (⟨1, 0, 0⟩ : Block ℚ).length (1 / 100))) ∧
      1 ≤ b1.ns_ ∧
      b1.length = (⟨1, 0, 0⟩ : Block ℚ).length ∧
      b1.ds_ = ratOps.div b1.length (ratOps.ofInt b1.ns_) ∧
      (∀ (c : Block ℚ) (newLength : ℚ), ratOps.isPos newLength = true →
        ∃ c1, setLength ratOps c newLength = some c1 ∧ c1.ns_ = c.ns_ ∧
          c1.length = newLength ∧ c1.ds_ = ratOps.div newLength (ratOps.ofInt c.ns_)) ∧
      ∃ b2, setLengths ratOps b1 [2, 3] = some b2 ∧ 1 ≤ b2.ns_ ∧ b2.ns_ = b1.ns_ ∧
        b2.ds_ = ratOps.div b2.length (ratOps.ofInt b2.ns_) :=
  ⟨by simp [ratOps], by simp [ratOps], by simp [ratOps],
    ds_eq_length_div_ns ratOps ⟨1, 0, 0⟩ (1 / 100) [2, 3] (by simp [ratOps])
      (by simp [ratOps]) (by simp [ratOps])⟩

theorem ds_example :
    (setDiscretization ratOps ⟨1, 0, 0⟩ (1 / 100)).map (fun b => (b.ns_, b.ds_))
      = some (100, 1 / 100) ∧
    setDiscretization ratOps ⟨1, 0, 0⟩ 0 = none ∧
    setDiscretization ratOps ⟨0, 0, 0⟩ (1 / 100) = none ∧
    setLength ratOps ⟨1, 1 / 100, 100⟩ (-1) = none ∧
    (setLength ratOps ⟨1, 1 / 100, 100⟩ 2).map (fun b => (b.ns_, b.ds_))
      = some (100, 1 / 50) := by
  simp only [setDiscretization, setLength, ratOps]
  norm_num

end Block

end Fd1d

end Pscf
